import Mathlib

set_option maxRecDepth 10000

/-!
Verification development for the `databricks-ai-solution` repository.

The Python source is shallowly embedded: pure helper functions become Lean
functions over `List Char` / `String` / `List ℝ`; floating-point numbers are
modelled by real numbers; external collaborators (HTTP backends, the SHA-256
digest, the SQL warehouse status stream) are modelled as explicit function
parameters.  Each definition mirrors one Python function, named after it.
-/

namespace DbxAi

/-! ## Python string primitives

`isPyWs` is the ASCII whitespace class used by `str.strip()` and by the
regex `\s` in the source (` `, `\t`, `\n`, `\r`, `\x0b`, `\x0c`). -/

def isPyWs (c : Char) : Bool :=
  c = ' ' || c = '\t' || c = '\n' || c = '\r' || c = Char.ofNat 11 || c = Char.ofNat 12

/-- Characters that count as indentation for `textwrap.dedent` (`[ \t]`). -/
def isSpaceTab (c : Char) : Bool :=
  c = ' ' || c = '\t'

/-- `str.lstrip()` on character lists. -/
def trimLeftChars (l : List Char) : List Char :=
  l.dropWhile isPyWs

/-- `str.rstrip()` on character lists. -/
def trimRightChars (l : List Char) : List Char :=
  (l.reverse.dropWhile isPyWs).reverse

/-- Python `str.strip()` on character lists. -/
def stripChars (l : List Char) : List Char :=
  trimRightChars (trimLeftChars l)

/-- Python `str.strip()`. -/
def pyStrip (s : String) : String :=
  String.mk (stripChars s.data)

/-- Character scan underlying `re.sub(r"\s+", " ", ·)`: the flag records
whether the previous character was whitespace (i.e. whether we are inside a
run that has already emitted its single `' '`). -/
def collapseAux : Bool → List Char → List Char
  | _, [] => []
  | prevWs, c :: cs =>
    if isPyWs c then
      if prevWs then collapseAux true cs
      else ' ' :: collapseAux true cs
    else c :: collapseAux false cs

/-- `re.sub(r"\s+", " ", ·)`: replace every maximal whitespace run by a
single space. -/
def collapseWs (l : List Char) : List Char :=
  collapseAux false l

/-- Split a character list on a separator character, Python `str.split(sep)`
semantics: `split [] = [[]]`, consecutive separators yield empty fields. -/
def splitChar (sep : Char) : List Char → List (List Char)
  | [] => [[]]
  | c :: cs =>
    if c = sep then [] :: splitChar sep cs
    else
      match splitChar sep cs with
      | [] => [[c]]
      | w :: ws => (c :: w) :: ws

/-- Join character lists with a separator character (`sep.join`). -/
def joinChar (sep : Char) : List (List Char) → List Char
  | [] => []
  | [w] => w
  | w :: ws => w ++ sep :: joinChar sep ws

/-- Python `text.split(" ")` on strings. -/
def splitSpace (s : String) : List String :=
  (splitChar ' ' s.data).map String.mk

/-- Python `" ".join(words)`. -/
def joinSpace (ws : List String) : String :=
  String.mk (joinChar ' ' (ws.map String.data))

/-- Python `sep.join(parts)` for a string separator. -/
def pyJoin (sep : String) : List String → String
  | [] => ""
  | [w] => w
  | w :: ws => w ++ sep ++ pyJoin sep ws

/-- `re.sub(r"\s+", " ", text).strip()` — the sanitisation step of
`DocumentProcessor.chunk_text`. -/
def sanitize (text : String) : String :=
  String.mk (stripChars (collapseWs text.data))

/-! ## Chunker (`src/src/services/document_service.py`)

`DocumentProcessor.__init__` validates `chunk_overlap < chunk_size` and
raises `ValueError` otherwise.  Sizes are word counts, modelled by `ℕ`. -/

structure DPConfig where
  chunk_size : ℕ
  chunk_overlap : ℕ
deriving DecidableEq, Repr

/-- `DocumentProcessor.__init__` (the configuration-validation part):
`raise ValueError` becomes `Except.error`. -/
def mkDocumentProcessor (chunk_size chunk_overlap : ℕ) : Except String DPConfig :=
  if chunk_size ≤ chunk_overlap then
    .error "chunk_overlap must be smaller than chunk_size"
  else
    .ok ⟨chunk_size, chunk_overlap⟩

/-- The `while start < len(words)` loop of `DocumentProcessor.chunk_text`,
with an explicit fuel parameter standing for the (finite) number of
iterations; `chunk_text` supplies fuel `words.length + 1`, which is enough
whenever `chunk_overlap < chunk_size` (the constructor invariant).
`start = end - self.chunk_overlap; if start < 0: start = 0` is exactly
truncated subtraction on `ℕ`. -/
def chunkLoop (size overlap : ℕ) (words : List String) : ℕ → ℕ → List String
  | 0, _ => []
  | fuel + 1, start =>
    if start < words.length then
      let e := min (start + size) words.length
      let chunk := pyStrip (joinSpace ((words.drop start).take (e - start)))
      let rest := if e = words.length then [] else chunkLoop size overlap words fuel (e - overlap)
      if chunk = "" then rest else chunk :: rest
    else []

/-- `DocumentProcessor.chunk_text`. -/
def chunkText (size overlap : ℕ) (text : String) : List String :=
  let sanitized := sanitize text
  if sanitized = "" then []
  else
    let words := splitSpace sanitized
    chunkLoop size overlap words (words.length + 1) 0

/-! ## EmbeddingService (`src/backend/app/services/embedding.py`)

Floats are modelled by `ℝ`.  The SHA-256 digest (external `hashlib`) is a
parameter `digest : String → List ℕ` returning the byte sequence of a token's
digest; the remote OpenAI client (external) is a parameter
`Option (String → List ℝ)` — `none` models the unconfigured/offline case. -/

/-- Python `str.lower()`. -/
def pyLower (s : String) : String :=
  String.mk (s.data.map Char.toLower)

/-- The inner `for i in range(self.dim): vector[i] += digest[i % len(digest)] / 255.0`
loop, one token's digest added to the accumulator (`i` is the current index). -/
noncomputable def addDigest (d : List ℕ) : ℕ → List ℝ → List ℝ
  | _, [] => []
  | i, x :: xs => (x + (d.getD (i % d.length) 0 : ℕ) / 255) :: addDigest d (i + 1) xs

/-- `sum(value * value for value in v)`. -/
noncomputable def sumSq (v : List ℝ) : ℝ :=
  (v.map fun x => x * x).sum

/-- `EmbeddingService.embed`.  `client = some f` models a configured remote
embedding backend (`self.client.embeddings.create(...)` returning `f text`);
`client = none` selects the deterministic hashing fallback. -/
noncomputable def embed (client : Option (String → List ℝ)) (dim : ℕ)
    (digest : String → List ℕ) (text : String) : List ℝ :=
  let normalized := pyStrip text
  if normalized = "" then List.replicate dim 0
  else
    match client with
    | some f => f normalized
    | none =>
      let tokens := splitSpace (pyLower normalized)
      let vector := tokens.foldl (fun v tok => addDigest (digest tok) 0 v) (List.replicate dim 0)
      let norm := Real.sqrt (sumSq vector)
      if norm = 0 then vector else vector.map fun value => value / norm

/-! ## DocumentIngestionService search (`src/backend/app/services/documents.py`)

Only the linear-scan branch (`uses_vector = False`) is modelled, as in the
claims.  Stored chunks are given as the list the `SELECT` returns, in
insertion order. -/

/-- `sum(x * y for x, y in zip(a, b))`. -/
noncomputable def dotProd : List ℝ → List ℝ → ℝ
  | x :: xs, y :: ys => x * y + dotProd xs ys
  | _, _ => 0

/-- `DocumentIngestionService._cosine_similarity`. -/
noncomputable def cosineSimilarity (a b : List ℝ) : ℝ :=
  let norm_a := Real.sqrt (sumSq a)
  let norm_b := Real.sqrt (sumSq b)
  if norm_a = 0 ∨ norm_b = 0 then 0
  else dotProd a b / (norm_a * norm_b)

/-- A stored `DocumentChunk` row: `id`, `content`, and its embedding
(`metadata` is irrelevant to the ranked-search claims and omitted). -/
structure ChunkRow where
  id : ℕ
  content : String
  embedding : List ℝ

/-- One entry of the `results` list built in `search`. -/
structure SearchResult where
  id : ℕ
  content : String
  score : ℝ

/-- The body of the `for chunk in chunks:` loop of `search`:
`chunk.embedding or [0.0 for _ in embed]` replaces a falsy (empty) stored
embedding by a zero vector of the query embedding's length. -/
noncomputable def scoreRow (queryEmbed : List ℝ) (row : ChunkRow) : SearchResult :=
  { id := row.id
    content := row.content
    score := cosineSimilarity queryEmbed
      (if row.embedding = [] then List.replicate queryEmbed.length 0 else row.embedding) }

/-- The comparator realising Python's stable
`sorted(results, key=lambda r: r["score"], reverse=True)`: a stable sort in
non-increasing score order.  `insertionSort` with this reflexive comparator
keeps earlier elements first on ties, exactly as a Python stable sort does. -/
def scoreGE (x y : SearchResult) : Prop := y.score ≤ x.score

noncomputable instance : DecidableRel scoreGE := fun x y => Real.decidableLE y.score x.score

/-- `DocumentIngestionService.search`, linear-scan branch (after the query
text has been embedded): score every stored row, sort by descending score
(stable), keep the first `k`. -/
noncomputable def search (rows : List ChunkRow) (queryEmbed : List ℝ) (k : ℕ) :
    List SearchResult :=
  (List.insertionSort scoreGE (rows.map (scoreRow queryEmbed))).take k

/-! ## RetryOrchestrator (`src/src/orchestration/pipeline.py`, `_with_retry`)

The wrapped operation is modelled as `op : ℕ → Except E A`, giving the
outcome of each attempt in order (attempt indices start at 0).  The result
pairs the final outcome with the list of logged (recorded-then-swallowed)
errors, one per failed attempt. -/

/-- Failure outcome of `_with_retry`: either the last underlying error,
re-raised verbatim (the error value itself is carried, not wrapped), or the
dedicated `RuntimeError("Operation failed with no attempts executed")`. -/
inductive RetryFailure (E : Type) where
  | lastError (e : E)
  | noAttempts
deriving DecidableEq, Repr

/-- The `while attempts < self.max_retries` loop; `remaining` is
`max_retries - attempts`, so the loop guard `attempts < max_retries` is
exactly `remaining > 0`. -/
def retryLoop {E A : Type} (op : ℕ → Except E A) (attempts : ℕ) (lastError : Option E)
    (log : List E) : ℕ → Except (RetryFailure E) A × List E
  | 0 =>
    match lastError with
    | some e => (.error (.lastError e), log)
    | none => (.error .noAttempts, log)
  | remaining + 1 =>
    match op attempts with
    | .ok a => (.ok a, log)
    | .error e => retryLoop op (attempts + 1) (some e) (log ++ [e]) remaining

/-- `WorkflowPipeline._with_retry`. -/
def withRetry {E A : Type} (op : ℕ → Except E A) (maxRetries : ℕ) :
    Except (RetryFailure E) A × List E :=
  retryLoop op 0 none [] maxRetries

/-! ## Statement polling

`_poll_statement` in `src/src/services/document_service.py` (with the 120 s
ceiling) and in `src/src/services/sow_service.py` (without one).  The remote
statement-status endpoint is a parameter `stream : ℕ → SqlResponse` giving
the response to the i-th `GET`; `time.sleep(1)` advances the clock by one
unit, so `time.time() - start` at the i-th poll is `i`. -/

/-- The fields of the polled response the loops look at:
`result["status"]["state"]` and `result["status"]["error"]`. -/
structure SqlResponse where
  state : String
  error : String
deriving DecidableEq, Repr

/-- `status in {"PENDING", "RUNNING", "QUEUED"}`. -/
def isPendingState (s : String) : Bool :=
  s = "PENDING" || s = "RUNNING" || s = "QUEUED"

/-- Outcome of `DocumentProcessor._poll_statement`. -/
inductive PollOutcome where
  | success
  | failed (detail : String)
  | timedOut
deriving DecidableEq, Repr

/-- `DocumentProcessor._poll_statement`'s `while True` loop.  `elapsed` is
the wall-clock check value `time.time() - start`; the structural `fuel`
argument only makes the recursion well-founded — starting from
`fuel = 122 - elapsed ≥ 1` the `fuel = 0` base is unreachable, because the
explicit `elapsed > 120` guard fires first. -/
def docPollAux (stream : ℕ → SqlResponse) : ℕ → ℕ → PollOutcome
  | 0, _ => .timedOut
  | fuel + 1, elapsed =>
    let result := stream elapsed
    if isPendingState result.state then
      if 120 < elapsed then .timedOut
      else docPollAux stream fuel (elapsed + 1)
    else if result.state = "FAILED" then .failed result.error
    else .success

/-- `DocumentProcessor._poll_statement`. -/
def docPoll (stream : ℕ → SqlResponse) : PollOutcome :=
  docPollAux stream 122 0

/-- Outcome of one bounded observation of `SOWGenerator._poll_statement`.
The source loop has no timeout, so it need not terminate; `stillPolling`
records that the loop was still running after the observed number of
iterations. -/
inductive SowPollOutcome where
  | success
  | failed (response : SqlResponse)
  | stillPolling
deriving DecidableEq, Repr

/-- `SOWGenerator._poll_statement`'s `while True` loop, observed for `fuel`
iterations (the loop itself has no exit besides a non-pending state). -/
def sowPoll (stream : ℕ → SqlResponse) : ℕ → ℕ → SowPollOutcome
  | 0, _ => .stillPolling
  | fuel + 1, i =>
    let result := stream i
    if isPendingState result.state then sowPoll stream fuel (i + 1)
    else if result.state = "FAILED" then .failed result
    else .success

/-! ## Ingestion (`DocumentProcessor.build_chunks` / `ingest_files`)

`process_file` performs file I/O and dispatches on the extension; it is an
external collaborator here, modelled as `processFile : String → Except String FileRecord`
(the `Except.error` case standing for any raised exception:
`FileNotFoundError`, unsupported format, or an extraction error). -/

/-- The dictionary returned by `process_file` (the fields `build_chunks`
reads). -/
structure FileRecord where
  content : String
  file_name : String
  format : String
  file_path : String
  page_count : Option ℕ
  rows : Option ℕ
deriving DecidableEq, Repr

/-- The chunk dictionaries built by `build_chunks`. -/
structure ChunkDict where
  chunk_id : ℕ
  content : String
  file_name : String
  format : String
  metadata : List (String × String)
deriving DecidableEq, Repr

/-- `DocumentProcessor.build_chunks`. -/
def buildChunks (size overlap : ℕ) (rec : FileRecord) : List ChunkDict :=
  (chunkText size overlap rec.content).enum.map fun p =>
    { chunk_id := p.1
      content := p.2
      file_name := rec.file_name
      format := rec.format
      metadata :=
        [("file_path", rec.file_path),
         ("page_count", (rec.page_count.map toString).getD ""),
         ("rows", (rec.rows.map toString).getD "")] }

/-- `DocumentProcessor.ingest_files`: per-file `try/except` that logs the
exception and continues with the remaining files. -/
def ingestFiles (size overlap : ℕ) (processFile : String → Except String FileRecord)
    (paths : List String) : List ChunkDict :=
  paths.flatMap fun p =>
    match processFile p with
    | .ok rec => buildChunks size overlap rec
    | .error _ => []

/-! ## Prompt assembly (`SOWGenerator._build_prompt`, `SowService._build_prompt`)

`textwrap.dedent` is modelled faithfully: lines consisting solely of spaces
and tabs are normalised to empty, the margin is the longest common prefix of
the leading `[ \t]*` of all remaining non-empty lines, and that margin is
removed from the start of every line that begins with it. -/

/-- Longest common prefix of two character lists (the margin-narrowing step
of `textwrap.dedent`). -/
def lcp : List Char → List Char → List Char
  | x :: xs, y :: ys => if x = y then x :: lcp xs ys else []
  | _, _ => []

/-- `^[ \t]+$` normalisation: a line of only spaces/tabs becomes empty. -/
def blankWsLine (l : List Char) : List Char :=
  if !l.isEmpty && l.all isSpaceTab then [] else l

/-- The common indentation margin of the (already blank-normalised) lines. -/
def dedentMargin (lines : List (List Char)) : List Char :=
  match (lines.filter (· ≠ [])).map (·.takeWhile isSpaceTab) with
  | [] => []
  | i :: is => is.foldl lcp i

/-- `textwrap.dedent` on character lists. -/
def dedentChars (l : List Char) : List Char :=
  let lines := (splitChar '\n' l).map blankWsLine
  let margin := dedentMargin lines
  joinChar '\n' (lines.map fun ln => if margin.isPrefixOf ln then ln.drop margin.length else ln)

/-- `textwrap.dedent`. -/
def dedent (s : String) : String :=
  String.mk (dedentChars s.data)

/-- `SOWGenerator._build_prompt` (`src/src/services/sow_service.py`).
`projectDetails` is the `str()` rendering of the `project_details` dict.
The `constraints or []` / `context_snippets or []` defaulting for `None`
arguments is reflected by taking plain lists. -/
def sowGeneratorBuildPrompt (projectDetails : String)
    (requirements constraints contextSnippets : List String) (tone : String) : String :=
  let scope := pyJoin "\n- " requirements
  let constraint_text :=
    let j := pyJoin "\n- " constraints
    if j = "" then "None provided" else j
  let context_text :=
    let j := pyJoin "\n---\n" contextSnippets
    if j = "" then "No context retrieved" else j
  pyStrip (dedent
    ("\n            Create a Statement of Work in a " ++ tone ++
     " tone.\n\n            Project Details: " ++ projectDetails ++
     "\n            Requirements:\n- " ++ scope ++
     "\n            Constraints:\n- " ++ constraint_text ++
     "\n            Context Snippets:\n" ++ context_text ++
     "\n\n            Include milestones, deliverables, acceptance criteria, and success metrics.\n            Provide a concise executive summary followed by detailed sections.\n            "))

/-- `SOWGenerator.generate_sow`: with a configured client the prompt is sent
as a single-turn instruction (`client = some f` yields `f prompt`); without
one the assembled prompt itself is returned. -/
def generateSow (client : Option (String → String)) (projectDetails : String)
    (requirements constraints contextSnippets : List String) (tone : String) : String :=
  let prompt := sowGeneratorBuildPrompt projectDetails requirements constraints contextSnippets tone
  match client with
  | some f => f prompt
  | none => prompt

/-- `SowService._build_prompt` (`src/backend/app/services/sow.py`). -/
def sowServiceBuildPrompt (project_id : String)
    (requirements constraints snippets : List String) (tone : String) : String :=
  let requirement_text := pyJoin "\n- " requirements
  let constraint_text := if constraints = [] then "None provided" else pyJoin "\n- " constraints
  let context_text := if snippets = [] then "No retrieved context" else pyJoin "\n---\n" snippets
  pyStrip (dedent
    ("\n            Create a structured Statement of Work for project " ++ project_id ++
     " in a " ++ tone ++
     " tone.\n            Include executive summary, scope, deliverables, milestones, assumptions, dependencies,\n            acceptance criteria, and a RACI table. Use bullet lists where helpful.\n\n            Requirements:\n            - " ++
     requirement_text ++
     "\n\n            Constraints:\n            - " ++ constraint_text ++
     "\n\n            Retrieved context:\n            " ++ context_text ++
     "\n            "))

/-- `SowService.generate`, reduced to the artifact body it produces: the
backend's completion when a client is configured, else the assembled prompt
verbatim. -/
def sowServiceGenerateBody (client : Option (String → String)) (project_id : String)
    (requirements constraints snippets : List String) (tone : String) : String :=
  let prompt := sowServiceBuildPrompt project_id requirements constraints snippets tone
  match client with
  | some f => f prompt
  | none => prompt

/-- Substring containment (`pat in s` in Python). -/
def strContains (s pat : String) : Prop :=
  pat.data <:+: s.data

instance : DecidablePred fun p : String × String => strContains p.1 p.2 :=
  fun p => List.decidableInfix p.2.data p.1.data

instance (s pat : String) : Decidable (strContains s pat) :=
  List.decidableInfix pat.data s.data

/-! ## Retry lemmas -/

theorem retryLoop_step_ok {E A : Type} {op : ℕ → Except E A} {t : ℕ} {a : A}
    (h : op t = .ok a) (le : Option E) (log : List E) (r : ℕ) :
    retryLoop op t le log (r + 1) = (.ok a, log) := by
  simp [retryLoop, h]

theorem retryLoop_step_error {E A : Type} {op : ℕ → Except E A} {t : ℕ} {e : E}
    (h : op t = .error e) (le : Option E) (log : List E) (r : ℕ) :
    retryLoop op t le log (r + 1) = retryLoop op (t + 1) (some e) (log ++ [e]) r := by
  simp [retryLoop, h]

theorem retryLoop_ok {E A : Type} (op : ℕ → Except E A) (es : ℕ → E) (a : A) :
    ∀ (n t r : ℕ) (le : Option E) (log : List E), n < r →
      (∀ j, t ≤ j → j < t + n → op j = .error (es j)) → op (t + n) = .ok a →
      retryLoop op t le log r = (.ok a, log ++ (List.range' t n).map es) := by
  intro n
  induction n with
  | zero =>
    intro t r le log hr hfail hok
    obtain ⟨r', rfl⟩ : ∃ r', r = r' + 1 := ⟨r - 1, by omega⟩
    rw [retryLoop_step_ok (by simpa using hok)]
    simp [List.range']
  | succ n ih =>
    intro t r le log hr hfail hok
    obtain ⟨r', rfl⟩ : ∃ r', r = r' + 1 := ⟨r - 1, by omega⟩
    have ht : op t = .error (es t) := hfail t le_rfl (by omega)
    rw [retryLoop_step_error ht]
    have := ih (t + 1) r' (some (es t)) (log ++ [es t]) (by omega)
      (fun j h1 h2 => hfail j (by omega) (by omega)) (by rw [← hok]; ring_nf)
    rw [this, List.range'_succ]
    simp

theorem retryLoop_exhaust {E A : Type} (op : ℕ → Except E A) (es : ℕ → E) :
    ∀ (n t : ℕ) (le : Option E) (log : List E), 0 < n →
      (∀ j, t ≤ j → j < t + n → op j = .error (es j)) →
      retryLoop op t le log n =
        (.error (.lastError (es (t + n - 1))), log ++ (List.range' t n).map es) := by
  intro n
  induction n with
  | zero => omega
  | succ n ih =>
    intro t le log _ hfail
    have ht : op t = .error (es t) := hfail t le_rfl (by omega)
    rw [retryLoop_step_error ht]
    rcases Nat.eq_zero_or_pos n with hn | hn
    · subst hn
      simp [retryLoop, List.range']
    · have := ih (t + 1) (some (es t)) (log ++ [es t]) hn
        (fun j h1 h2 => hfail j (by omega) (by omega))
      rw [this, List.range'_succ]
      have harith : t + 1 + n - 1 = t + (n + 1) - 1 := by omega
      simp [harith]

/-- **C3.** `WorkflowPipeline._with_retry`: if the operation succeeds on
attempt `i` (0-indexed, `i < maxAttempts`) after failing on attempts
`0..i-1`, the success value is returned and exactly the `i` recorded errors
are logged; if every one of `maxAttempts > 0` attempts fails, the error of
the final attempt is re-raised verbatim (carried untouched inside
`RetryFailure.lastError`) after logging all `maxAttempts` failures; and with
`maxAttempts = 0` the operation is never consulted and the dedicated
"no attempts executed" failure is produced. -/
theorem withRetry_spec {E A : Type} (op : ℕ → Except E A) (maxRetries : ℕ) (es : ℕ → E) :
    (∀ i a, i < maxRetries → (∀ j, j < i → op j = .error (es j)) → op i = .ok a →
        withRetry op maxRetries = (.ok a, (List.range i).map es))
    ∧ (0 < maxRetries → (∀ j, j < maxRetries → op j = .error (es j)) →
        withRetry op maxRetries =
          (.error (.lastError (es (maxRetries - 1))), (List.range maxRetries).map es))
    ∧ withRetry op 0 = (.error .noAttempts, [])
    ∧ (∀ op' : ℕ → Except E A, withRetry op' 0 = withRetry op 0) := by
  refine ⟨?_, ?_, rfl, fun _ => rfl⟩
  · intro i a hi hfail hok
    have := retryLoop_ok op es a i 0 maxRetries none [] hi
      (fun j h1 h2 => hfail j (by omega)) (by simpa using hok)
    simpa [withRetry, List.range_eq_range'] using this
  · intro hpos hfail
    have := retryLoop_exhaust op es maxRetries 0 none [] hpos
      (fun j h1 h2 => hfail j (by omega))
    simpa [withRetry, List.range_eq_range'] using this

/-- Concrete operation for the retry witness: fails on attempts 0 and 1,
succeeds on attempt 2. -/
def opRetryW : ℕ → Except String ℕ :=
  fun j => if j < 2 then .error "boom" else .ok 42

theorem withRetry_spec_witness :
    (2 < 3 ∧ opRetryW 2 = .ok 42) ∧ withRetry opRetryW 3 = (.ok 42, ["boom", "boom"]) := by
  refine ⟨⟨by omega, rfl⟩, ?_⟩
  have h := (withRetry_spec opRetryW 3 fun _ => "boom").1 2 42 (by omega)
    (fun j hj => by
      match j, hj with
      | 0, _ => rfl
      | 1, _ => rfl)
    rfl
  simpa using h

/-! ## Polling lemmas -/

theorem docPollAux_timeout (stream : ℕ → SqlResponse) :
    ∀ (fuel e : ℕ), e + fuel = 122 →
      (∀ i, e ≤ i → i ≤ 121 → isPendingState (stream i).state) →
      docPollAux stream fuel e = .timedOut := by
  intro fuel
  induction fuel with
  | zero => intro e _ _; rfl
  | succ fuel ih =>
    intro e he hpend
    have hp : isPendingState (stream e).state = true := hpend e le_rfl (by omega)
    simp only [docPollAux, hp, if_true]
    by_cases h120 : 120 < e
    · simp [h120]
    · rw [if_neg h120]
      exact ih (e + 1) (by omega) fun i h1 h2 => hpend i (by omega) h2

theorem docPollAux_first_settled (stream : ℕ → SqlResponse) :
    ∀ (fuel e k : ℕ), e ≤ k → k ≤ 121 → e + fuel = 122 →
      (∀ i, e ≤ i → i < k → isPendingState (stream i).state) →
      ¬ isPendingState (stream k).state →
      docPollAux stream fuel e =
        (if (stream k).state = "FAILED" then .failed (stream k).error else .success) := by
  intro fuel
  induction fuel with
  | zero => omega
  | succ fuel ih =>
    intro e k hek hk he hpend hnot
    rcases Nat.eq_or_lt_of_le hek with rfl | hlt
    · simp only [docPollAux]
      rw [if_neg (by simpa using hnot)]
    · have hp : isPendingState (stream e).state = true := hpend e le_rfl hlt
      simp only [docPollAux, hp, if_true]
      rw [if_neg (by omega)]
      exact ih (e + 1) k (by omega) hk (by omega)
        (fun i h1 h2 => hpend i (by omega) h2) hnot

theorem sowPoll_forever (stream : ℕ → SqlResponse)
    (hpend : ∀ i, isPendingState (stream i).state) :
    ∀ (fuel i : ℕ), sowPoll stream fuel i = .stillPolling := by
  intro fuel
  induction fuel with
  | zero => intro i; rfl
  | succ fuel ih =>
    intro i
    simp only [sowPoll, hpend i, if_true]
    exact ih (i + 1)

theorem sowPoll_first_settled (stream : ℕ → SqlResponse) :
    ∀ (fuel i k : ℕ), i ≤ k → k - i < fuel →
      (∀ j, i ≤ j → j < k → isPendingState (stream j).state) →
      ¬ isPendingState (stream k).state →
      sowPoll stream fuel i =
        (if (stream k).state = "FAILED" then .failed (stream k) else .success) := by
  intro fuel
  induction fuel with
  | zero => omega
  | succ fuel ih =>
    intro i k hik hf hpend hnot
    rcases Nat.eq_or_lt_of_le hik with rfl | hlt
    · simp only [sowPoll]
      rw [if_neg (by simpa using hnot)]
    · have hp : isPendingState (stream i).state = true := hpend i le_rfl hlt
      simp only [sowPoll, hp, if_true]
      exact ih (i + 1) k (by omega) (by omega)
        (fun j h1 h2 => hpend j (by omega) h2) hnot

/-- **C5 (amended).** The `DocumentProcessor._poll_statement` loop is fully
bounded: it times out (a distinct outcome) once `elapsed` exceeds the fixed
120-unit ceiling while the state stays `PENDING`/`RUNNING`/`QUEUED`, and at
the first non-pending response it fails with the backend-reported detail on
`"FAILED"` and returns successfully otherwise.  The
`SOWGenerator._poll_statement` loop also settles at the first non-pending
response, but it has no timeout: on a stream that stays pending it is still
polling after every finite number of iterations. -/
theorem polling_spec (stream : ℕ → SqlResponse) :
    ((∀ i, i ≤ 121 → isPendingState (stream i).state) → docPoll stream = .timedOut)
    ∧ (∀ k, k ≤ 121 → (∀ i, i < k → isPendingState (stream i).state) →
        ¬ isPendingState (stream k).state →
        docPoll stream =
          (if (stream k).state = "FAILED" then .failed (stream k).error else .success))
    ∧ ((∀ i, isPendingState (stream i).state) → ∀ fuel, sowPoll stream fuel 0 = .stillPolling)
    ∧ (∀ k fuel, k < fuel → (∀ i, i < k → isPendingState (stream i).state) →
        ¬ isPendingState (stream k).state →
        sowPoll stream fuel 0 =
          (if (stream k).state = "FAILED" then .failed (stream k) else .success)) := by
  refine ⟨?_, ?_, ?_, ?_⟩
  · intro h
    exact docPollAux_timeout stream 122 0 rfl fun i _ h2 => h i h2
  · intro k hk hpend hnot
    exact docPollAux_first_settled stream 122 0 k (Nat.zero_le _) hk rfl
      (fun i _ h2 => hpend i h2) hnot
  · intro h fuel
    exact sowPoll_forever stream h fuel 0
  · intro k fuel hf hpend hnot
    exact sowPoll_first_settled stream fuel 0 k (Nat.zero_le _) (by omega)
      (fun j _ h2 => hpend j h2) hnot

/-- A status stream that is pending forever. -/
def pendingStream : ℕ → SqlResponse := fun _ => ⟨"PENDING", ""⟩

theorem polling_spec_witness :
    (∀ i, i ≤ 121 → isPendingState (pendingStream i).state) ∧
      docPoll pendingStream = .timedOut := by
  refine ⟨fun i _ => rfl, (polling_spec pendingStream).1 (fun i _ => rfl)⟩

/-- **C5 counterexample** to the claim as stated: the `SOWGenerator` polling
loop raises no timeout; on a stream that stays `PENDING` it is still polling
after 1000 iterations — far beyond the 120-unit ceiling the claim asserts
for every polling loop. -/
theorem sow_poll_no_timeout_counterexample :
    sowPoll pendingStream 1000 0 = .stillPolling := by
  decide

/-! ## Constructor validation (C9) -/

/-- **C9.** `DocumentProcessor.__init__` fails with the configuration
`ValueError` exactly when `chunk_overlap >= chunk_size`, before any document
is processed; every `chunk_overlap < chunk_size` constructs successfully. -/
theorem chunker_construction_spec (size overlap : ℕ) :
    (size ≤ overlap →
      mkDocumentProcessor size overlap = .error "chunk_overlap must be smaller than chunk_size")
    ∧ (overlap < size → mkDocumentProcessor size overlap = .ok ⟨size, overlap⟩) := by
  constructor
  · intro h
    simp [mkDocumentProcessor, h]
  · intro h
    simp [mkDocumentProcessor, Nat.not_le.mpr h]

theorem chunker_construction_spec_witness :
    ((800 : ℕ) ≤ 800 ∧
      mkDocumentProcessor 800 800 = .error "chunk_overlap must be smaller than chunk_size")
    ∧ ((120 : ℕ) < 800 ∧ mkDocumentProcessor 800 120 = .ok ⟨800, 120⟩) :=
  ⟨⟨le_rfl, (chunker_construction_spec 800 800).1 le_rfl⟩,
   ⟨by omega, (chunker_construction_spec 800 120).2 (by omega)⟩⟩

/-! ## Ingestion error handling (C6) -/

/-- **C6 (amended).** `DocumentProcessor.ingest_files` does *not* propagate
per-file failures: a file whose processing raises is logged and skipped, and
ingestion continues with the remaining files, returning the chunks of the
successfully processed files only. -/
theorem ingest_files_skips_failures (size overlap : ℕ)
    (processFile : String → Except String FileRecord) (pre post : List String)
    (bad : String) (h : (processFile bad).isOk = false) :
    ingestFiles size overlap processFile (pre ++ bad :: post) =
      ingestFiles size overlap processFile pre ++ ingestFiles size overlap processFile post := by
  have hbad : ∀ x, (match processFile bad with
      | .ok rec => buildChunks size overlap rec
      | .error _ => ([] : List ChunkDict)) = x → x = [] := by
    intro x hx
    cases hpf : processFile bad with
    | ok v => rw [hpf] at h; simp [Except.isOk, Except.toBool] at h
    | error e => rw [hpf] at hx; simpa using hx.symm
  unfold ingestFiles
  rw [List.flatMap_append, List.flatMap_cons]
  rw [hbad _ rfl]
  simp

/-- Concrete `process_file` outcome map for the C6 theorems: `bad.csv`
raises (`FileNotFoundError`), `good.txt` extracts successfully. -/
def processFileC6 : String → Except String FileRecord :=
  fun p =>
    if p = "bad.csv" then .error "File not found: bad.csv"
    else .ok ⟨"hello world", "good.txt", "txt", "/tmp/good.txt", none, none⟩

theorem ingest_files_skips_failures_witness :
    (processFileC6 "bad.csv").isOk = false ∧
      ingestFiles 800 120 processFileC6 (["good.txt"] ++ "bad.csv" :: []) =
        ingestFiles 800 120 processFileC6 ["good.txt"] ++
          ingestFiles 800 120 processFileC6 [] :=
  ⟨rfl, ingest_files_skips_failures 800 120 processFileC6 ["good.txt"] [] "bad.csv" rfl⟩

/-- **C6 counterexample** to the claim as stated: with a batch containing a
failing file followed by a processable one, `ingest_files` neither
propagates the failure nor stops — it returns exactly the chunks of the
good file, the failure having been swallowed. -/
theorem ingest_files_counterexample :
    (processFileC6 "bad.csv").isOk = false ∧
      ingestFiles 800 120 processFileC6 ["bad.csv", "good.txt"] =
        [{ chunk_id := 0, content := "hello world", file_name := "good.txt", format := "txt",
           metadata := [("file_path", "/tmp/good.txt"), ("page_count", ""), ("rows", "")] }] := by
  exact ⟨rfl, rfl⟩

/-! ## Embedding dimension behaviour (C4) -/

theorem addDigest_length (d : List ℕ) : ∀ (i : ℕ) (v : List ℝ),
    (addDigest d i v).length = v.length := by
  intro i v
  induction v generalizing i with
  | nil => rfl
  | cons x xs ih => simp [addDigest, ih]

theorem foldl_addDigest_length (digest : String → List ℕ) (tokens : List String) :
    ∀ v : List ℝ,
      (tokens.foldl (fun v tok => addDigest (digest tok) 0 v) v).length = v.length := by
  induction tokens with
  | nil => intro v; rfl
  | cons t ts ih => intro v; rw [List.foldl_cons, ih, addDigest_length]

/-- **C4 (amended).** `EmbeddingService.embed`: empty or whitespace-only
input yields the all-zero vector of the configured dimension in both backend
and fallback modes; the fallback mode always produces a vector of exactly
the configured dimension; but a configured backend's vector is returned
unchanged with no dimension validation whatsoever — a length mismatch is
silently passed through to the caller, not surfaced as an error. -/
theorem embed_dimension_spec :
    (∀ (client : Option (String → List ℝ)) (dim : ℕ) (digest : String → List ℕ)
        (text : String), pyStrip text = "" →
        embed client dim digest text = List.replicate dim 0)
    ∧ (∀ (dim : ℕ) (digest : String → List ℕ) (text : String),
        (embed none dim digest text).length = dim)
    ∧ (∀ (f : String → List ℝ) (dim : ℕ) (digest : String → List ℕ) (text : String),
        pyStrip text ≠ "" → embed (some f) dim digest text = f (pyStrip text)) := by
  refine ⟨?_, ?_, ?_⟩
  · intro client dim digest text h
    simp [embed, h]
  · intro dim digest text
    by_cases h : pyStrip text = ""
    · simp [embed, h]
    · simp only [embed, if_neg h]
      set vector := (splitSpace (pyLower (pyStrip text))).foldl
        (fun v tok => addDigest (digest tok) 0 v) (List.replicate dim (0 : ℝ)) with hv
      have hlen : vector.length = dim := by
        rw [hv, foldl_addDigest_length, List.length_replicate]
      by_cases hn : Real.sqrt (sumSq vector) = 0
      · simpa [hn] using hlen
      · simpa [hn] using hlen
  · intro f dim digest text h
    simp [embed, h]

/-- Placeholder digest for concrete witness inputs (the digest value is
irrelevant to the dimension claims). -/
def digestZero : String → List ℕ := fun _ => List.replicate 32 0

theorem embed_dimension_spec_witness :
    (pyStrip "   " = "" ∧ embed none 4 digestZero "   " = List.replicate 4 0)
    ∧ (pyStrip "x" ≠ "" ∧
        embed (some fun _ => [0, 0, 0, 0]) 3 digestZero "x" = (fun _ => [0, 0, 0, 0]) (pyStrip "x")) :=
  ⟨⟨by decide, embed_dimension_spec.1 none 4 digestZero "   " (by decide)⟩,
   ⟨by decide, embed_dimension_spec.2.2 (fun _ => [0, 0, 0, 0]) 3 digestZero "x" (by decide)⟩⟩

/-- **C4 counterexample** to the claim as stated: a configured backend
returning a 4-dimensional vector on a service configured with `dim = 3` has
its vector handed back verbatim — no configuration error of any kind is
raised or returned, the mismatch is silently passed through. -/
theorem embed_dimension_counterexample :
    embed (some fun _ => [0, 0, 0, 0]) 3 digestZero "x" = [0, 0, 0, 0] ∧
      ([0, 0, 0, 0] : List ℝ).length ≠ 3 := by
  constructor
  · have hne : pyStrip "x" ≠ "" := by decide
    simp [embed, hne]
  · simp

/-! ## Fallback-embedding non-negativity (C10) -/

theorem addDigest_nonneg (d : List ℕ) : ∀ (i : ℕ) (v : List ℝ),
    (∀ x ∈ v, 0 ≤ x) → ∀ x ∈ addDigest d i v, 0 ≤ x := by
  intro i v
  induction v generalizing i with
  | nil => intro _ x hx; simp [addDigest] at hx
  | cons y ys ih =>
    intro hv x hx
    rw [addDigest] at hx
    rcases List.mem_cons.mp hx with rfl | hx
    · have h1 : (0 : ℝ) ≤ y := hv y (List.mem_cons_self y ys)
      have h2 : (0 : ℝ) ≤ ((d.getD (i % d.length) 0 : ℕ) : ℝ) / 255 := by positivity
      linarith
    · exact ih (i + 1) (fun z hz => hv z (List.mem_cons_of_mem _ hz)) x hx

theorem foldl_addDigest_nonneg (digest : String → List ℕ) (tokens : List String) :
    ∀ v : List ℝ, (∀ x ∈ v, 0 ≤ x) →
      ∀ x ∈ tokens.foldl (fun v tok => addDigest (digest tok) 0 v) v, 0 ≤ x := by
  induction tokens with
  | nil => intro v hv; simpa using hv
  | cons t ts ih =>
    intro v hv
    rw [List.foldl_cons]
    exact ih _ (addDigest_nonneg (digest t) 0 v hv)

theorem embed_none_nonneg (dim : ℕ) (digest : String → List ℕ) (t : String) :
    ∀ x ∈ embed none dim digest t, 0 ≤ x := by
  intro x hx
  by_cases h : pyStrip t = ""
  · rw [embed] at hx
    simp only [h, if_pos] at hx
    have hx0 : x = 0 := List.eq_of_mem_replicate hx
    rw [hx0]
  · simp only [embed, if_neg h] at hx
    set vector := (splitSpace (pyLower (pyStrip t))).foldl
      (fun v tok => addDigest (digest tok) 0 v) (List.replicate dim (0 : ℝ)) with hv
    have hvec : ∀ y ∈ vector, 0 ≤ y := by
      apply foldl_addDigest_nonneg
      intro y hy
      simp [List.eq_of_mem_replicate hy]
    by_cases hn : Real.sqrt (sumSq vector) = 0
    · rw [if_pos hn] at hx
      exact hvec x hx
    · rw [if_neg hn] at hx
      obtain ⟨y, hy, rfl⟩ := List.mem_map.mp hx
      have hs : 0 ≤ Real.sqrt (sumSq vector) := Real.sqrt_nonneg _
      exact div_nonneg (hvec y hy) hs

theorem dotProd_nonneg : ∀ (a b : List ℝ), (∀ x ∈ a, 0 ≤ x) → (∀ y ∈ b, 0 ≤ y) →
    0 ≤ dotProd a b := by
  intro a
  induction a with
  | nil => intro b _ _; exact le_rfl
  | cons x xs ih =>
    intro b ha hb
    cases b with
    | nil => exact le_rfl
    | cons y ys =>
      rw [dotProd]
      have h1 : 0 ≤ x * y :=
        mul_nonneg (ha x (List.mem_cons_self x xs)) (hb y (List.mem_cons_self y ys))
      have h2 : 0 ≤ dotProd xs ys :=
        ih ys (fun z hz => ha z (List.mem_cons_of_mem _ hz))
          (fun z hz => hb z (List.mem_cons_of_mem _ hz))
      linarith

theorem cosineSimilarity_nonneg_of_nonneg (a b : List ℝ)
    (ha : ∀ x ∈ a, 0 ≤ x) (hb : ∀ y ∈ b, 0 ≤ y) :
    0 ≤ cosineSimilarity a b := by
  rw [cosineSimilarity]
  split
  · exact le_rfl
  · exact div_nonneg (dotProd_nonneg a b ha hb)
      (mul_nonneg (Real.sqrt_nonneg _) (Real.sqrt_nonneg _))

/-- **C10.** Every component of a fallback-produced embedding is
non-negative (each token contributes `digest[i % len] / 255 ≥ 0` and the
final L2 normalisation divides by a non-negative square root), hence the
cosine similarity between any two fallback embeddings is non-negative and in
particular can never be `-1`. -/
theorem fallback_embedding_nonneg (dim : ℕ) (digest : String → List ℕ) (t u : String) :
    (∀ x ∈ embed none dim digest t, 0 ≤ x)
    ∧ 0 ≤ cosineSimilarity (embed none dim digest t) (embed none dim digest u)
    ∧ cosineSimilarity (embed none dim digest t) (embed none dim digest u) ≠ -1 := by
  have h1 := embed_none_nonneg dim digest t
  have h2 := embed_none_nonneg dim digest u
  have hc := cosineSimilarity_nonneg_of_nonneg _ _ h1 h2
  exact ⟨h1, hc, fun h => by rw [h] at hc; linarith⟩

/-! ## Linear-scan search (C2) -/

instance : IsTotal SearchResult scoreGE :=
  ⟨fun a b => le_total b.score a.score⟩

instance : IsTrans SearchResult scoreGE :=
  ⟨fun _ _ _ h1 h2 => le_trans h2 h1⟩

open Classical in
theorem filter_orderedInsert_score (s : ℝ) (x : SearchResult) (l : List SearchResult) :
    (List.orderedInsert scoreGE x l).filter (fun y => decide (y.score = s)) =
      (if x.score = s then [x] else []) ++ l.filter (fun y => decide (y.score = s)) := by
  induction l with
  | nil =>
    by_cases hx : x.score = s <;> simp [List.orderedInsert, hx]
  | cons b l ih =>
    rw [List.orderedInsert]
    by_cases hr : scoreGE x b
    · rw [if_pos hr]
      by_cases hx : x.score = s <;> simp [List.filter_cons, hx]
    · rw [if_neg hr]
      have hbx : x.score < b.score := lt_of_not_le hr
      by_cases hb : b.score = s
      · by_cases hx : x.score = s
        · exact absurd (hx.trans hb.symm) (ne_of_lt hbx)
        · simp [List.filter_cons, hb, hx, ih]
      · simp [List.filter_cons, hb, ih]

open Classical in
theorem filter_insertionSort_score (s : ℝ) (l : List SearchResult) :
    (List.insertionSort scoreGE l).filter (fun y => decide (y.score = s)) =
      l.filter (fun y => decide (y.score = s)) := by
  induction l with
  | nil => rfl
  | cons x l ih =>
    rw [List.insertionSort, filter_orderedInsert_score, ih]
    by_cases hx : x.score = s <;> simp [List.filter_cons, hx]

/-- **C2.** `DocumentIngestionService.search` (linear-scan mode) returns
exactly `min n k` results; the returned scores are non-increasing
(`Pairwise scoreGE`); every result is one of the cosine-scored rows; the
underlying sort is stable — for every score value, the sorted list restricted
to that score equals the scan-order list restricted to it, so ties keep
insertion order; and the output is exactly the first `k` of the stably
sorted scored rows. -/
theorem search_spec (rows : List ChunkRow) (queryEmbed : List ℝ) (k : ℕ) :
    (search rows queryEmbed k).length = min rows.length k
    ∧ List.Pairwise scoreGE (search rows queryEmbed k)
    ∧ (∀ x ∈ search rows queryEmbed k, x ∈ rows.map (scoreRow queryEmbed))
    ∧ (∀ s : ℝ,
        (List.insertionSort scoreGE (rows.map (scoreRow queryEmbed))).filter
            (fun y => decide (y.score = s)) =
          (rows.map (scoreRow queryEmbed)).filter (fun y => decide (y.score = s)))
    ∧ search rows queryEmbed k =
        (List.insertionSort scoreGE (rows.map (scoreRow queryEmbed))).take k := by
  refine ⟨?_, ?_, ?_, fun s => filter_insertionSort_score s _, rfl⟩
  · rw [search, List.length_take,
      (List.perm_insertionSort scoreGE (rows.map (scoreRow queryEmbed))).length_eq,
      List.length_map, Nat.min_comm]
  · exact ((List.sorted_insertionSort scoreGE _).sublist (List.take_sublist _ _))
  · intro x hx
    have hmem := (List.take_sublist _ _).subset hx
    exact ((List.perm_insertionSort scoreGE _).mem_iff).mp hmem

/-! ## Split / join round-trip lemmas -/

theorem splitChar_ne_nil (sep : Char) : ∀ l : List Char, splitChar sep l ≠ [] := by
  intro l
  cases l with
  | nil => simp [splitChar]
  | cons c cs =>
    rw [splitChar]
    by_cases h : c = sep
    · simp [h]
    · rw [if_neg h]
      cases hs : splitChar sep cs <;> simp

theorem joinChar_splitChar (sep : Char) : ∀ l : List Char,
    joinChar sep (splitChar sep l) = l := by
  intro l
  induction l with
  | nil => rfl
  | cons c cs ih =>
    rw [splitChar]
    by_cases h : c = sep
    · rw [if_pos h]
      obtain ⟨w, ws, hws⟩ : ∃ w ws, splitChar sep cs = w :: ws := by
        cases hs : splitChar sep cs with
        | nil => exact absurd hs (splitChar_ne_nil sep cs)
        | cons w ws => exact ⟨w, ws, rfl⟩
      rw [hws]
      rw [hws] at ih
      show [] ++ sep :: joinChar sep (w :: ws) = c :: cs
      rw [ih, h]
      rfl
    · rw [if_neg h]
      cases hs : splitChar sep cs with
      | nil => exact absurd hs (splitChar_ne_nil sep cs)
      | cons w ws =>
        rw [hs] at ih
        cases ws with
        | nil =>
          show c :: w = c :: cs
          rw [show joinChar sep [w] = w from rfl] at ih
          rw [ih]
        | cons w' ws' =>
          show (c :: w) ++ sep :: joinChar sep (w' :: ws') = c :: cs
          rw [show joinChar sep (w :: w' :: ws') = w ++ sep :: joinChar sep (w' :: ws') from rfl] at ih
          simpa using ih

theorem sep_not_mem_splitChar (sep : Char) : ∀ (l : List Char), ∀ w ∈ splitChar sep l, sep ∉ w := by
  intro l
  induction l with
  | nil => intro w hw; simp [splitChar] at hw; simp [hw]
  | cons c cs ih =>
    intro w hw
    rw [splitChar] at hw
    by_cases h : c = sep
    · rw [if_pos h] at hw
      rcases List.mem_cons.mp hw with rfl | hw
      · simp
      · exact ih w hw
    · rw [if_neg h] at hw
      cases hs : splitChar sep cs with
      | nil => exact absurd hs (splitChar_ne_nil sep cs)
      | cons v vs =>
        rw [hs] at hw
        rcases List.mem_cons.mp hw with rfl | hw
        · intro hc
          rcases List.mem_cons.mp hc with rfl | hc
          · exact h rfl
          · exact ih v (hs ▸ List.mem_cons_self v vs) hc
        · exact ih w (hs ▸ List.mem_cons_of_mem v hw)

theorem splitChar_of_not_mem (sep : Char) : ∀ (w : List Char), sep ∉ w →
    splitChar sep w = [w] := by
  intro w
  induction w with
  | nil => intro _; rfl
  | cons c cs ih =>
    intro h
    have hc : c ≠ sep := fun hc => h (hc ▸ List.mem_cons_self c cs)
    rw [splitChar, if_neg hc, ih (fun hm => h (List.mem_cons_of_mem c hm))]

theorem splitChar_append_sep (sep : Char) : ∀ (w r : List Char), sep ∉ w →
    splitChar sep (w ++ sep :: r) = w :: splitChar sep r := by
  intro w
  induction w with
  | nil => intro r _; simp [splitChar]
  | cons c cs ih =>
    intro r h
    have hc : c ≠ sep := fun hc => h (hc ▸ List.mem_cons_self c cs)
    rw [List.cons_append, splitChar, if_neg hc,
      ih r (fun hm => h (List.mem_cons_of_mem c hm))]

theorem splitChar_joinChar (sep : Char) : ∀ (wss : List (List Char)), wss ≠ [] →
    (∀ w ∈ wss, sep ∉ w) → splitChar sep (joinChar sep wss) = wss := by
  intro wss
  induction wss with
  | nil => intro h; exact absurd rfl h
  | cons w ws ih =>
    intro _ hmem
    cases ws with
    | nil =>
      show splitChar sep w = [w]
      exact splitChar_of_not_mem sep w (hmem w (List.mem_cons_self w []))
    | cons w' ws' =>
      show splitChar sep (w ++ sep :: joinChar sep (w' :: ws')) = w :: w' :: ws'
      rw [splitChar_append_sep sep w _ (hmem w (List.mem_cons_self w _)),
        ih (by simp) (fun v hv => hmem v (List.mem_cons_of_mem w hv))]

theorem mem_joinChar (sep : Char) : ∀ (wss : List (List Char)) (w : List Char) (c : Char),
    w ∈ wss → c ∈ w → c ∈ joinChar sep wss := by
  intro wss
  induction wss with
  | nil => intro w c hw; simp at hw
  | cons v vs ih =>
    intro w c hw hc
    rcases List.mem_cons.mp hw with rfl | hw
    · cases vs with
      | nil => exact hc
      | cons v' vs' => exact List.mem_append.mpr (Or.inl hc)
    · cases vs with
      | nil => simp at hw
      | cons v' vs' =>
        refine List.mem_append.mpr (Or.inr ?_)
        exact List.mem_cons_of_mem sep (ih w c hw hc)

theorem joinChar_head_ne_nil (sep : Char) : ∀ (w : List Char) (ws : List (List Char)),
    w ≠ [] → (joinChar sep (w :: ws)).head? = w.head? := by
  intro w ws hw
  cases ws with
  | nil => rfl
  | cons w' ws' =>
    show (w ++ sep :: joinChar sep (w' :: ws')).head? = w.head?
    cases w with
    | nil => exact absurd rfl hw
    | cons c cs => rfl

theorem joinChar_ne_nil (sep : Char) (w : List Char) (ws : List (List Char)) (hw : w ≠ []) :
    joinChar sep (w :: ws) ≠ [] := by
  cases ws with
  | nil => exact hw
  | cons w' ws' =>
    show w ++ sep :: joinChar sep (w' :: ws') ≠ []
    simp

theorem joinChar_getLast_not_ws : ∀ (wss : List (List Char)),
    (∀ w ∈ wss, w ≠ [] ∧ ∀ c ∈ w, isPyWs c = false) →
    ∀ c, (joinChar ' ' wss).getLast? = some c → isPyWs c = false := by
  intro wss
  induction wss with
  | nil => intro _ c hc; simp [joinChar] at hc
  | cons w ws ih =>
    intro hsane c hc
    cases ws with
    | nil =>
      have hcw : c ∈ w := List.mem_of_getLast?_eq_some hc
      exact (hsane w (List.mem_cons_self w [])).2 c hcw
    | cons w' ws' =>
      have hj : joinChar ' ' (w' :: ws') ≠ [] :=
        joinChar_ne_nil ' ' w' ws' (hsane w' (by simp)).1
      rw [show joinChar ' ' (w :: w' :: ws') = w ++ ' ' :: joinChar ' ' (w' :: ws') from rfl,
        List.getLast?_append] at hc
      cases hjj : joinChar ' ' (w' :: ws') with
      | nil => exact absurd hjj hj
      | cons a as =>
        rw [hjj, List.getLast?_cons_cons] at hc
        have : (joinChar ' ' (w' :: ws')).getLast? = some c := by
          rw [hjj]
          cases hgl : (a :: as).getLast? with
          | none => simp at hgl
          | some b =>
            rw [hgl] at hc
            simpa using hc
        exact ih (fun v hv => hsane v (List.mem_cons_of_mem w hv)) c this

/-! ## Structure of sanitised text -/

/-- No two adjacent spaces. -/
def spaced (a b : Char) : Prop := ¬(a = ' ' ∧ b = ' ')

theorem collapseAux_only_space : ∀ (b : Bool) (l : List Char) (c : Char),
    c ∈ collapseAux b l → isPyWs c → c = ' ' := by
  intro b l
  induction l generalizing b with
  | nil => intro c hc; simp [collapseAux] at hc
  | cons x xs ih =>
    intro c hc hws
    rw [collapseAux] at hc
    by_cases hx : isPyWs x
    · rw [if_pos hx] at hc
      cases b with
      | true => exact ih true c hc hws
      | false =>
        rcases List.mem_cons.mp hc with rfl | hc
        · rfl
        · exact ih true c hc hws
    · rw [if_neg hx] at hc
      rcases List.mem_cons.mp hc with rfl | hc
      · exact absurd hws (by simpa using hx)
      · exact ih false c hc hws

theorem collapseAux_true_head : ∀ (l : List Char) (c : Char),
    (collapseAux true l).head? = some c → c ≠ ' ' := by
  intro l
  induction l with
  | nil => intro c hc; simp [collapseAux] at hc
  | cons x xs ih =>
    intro c hc
    rw [collapseAux] at hc
    by_cases hx : isPyWs x
    · rw [if_pos hx] at hc
      exact ih c hc
    · rw [if_neg hx] at hc
      simp only [List.head?_cons, Option.some.injEq] at hc
      intro h
      rw [h] at hc
      exact hx (by rw [hc]; rfl)

theorem collapseAux_chain : ∀ (l : List Char) (b : Bool),
    List.Chain' spaced (collapseAux b l) := by
  intro l
  induction l with
  | nil => intro b; simp [collapseAux]
  | cons x xs ih =>
    intro b
    rw [collapseAux]
    by_cases hx : isPyWs x
    · rw [if_pos hx]
      cases b with
      | true => rw [if_pos rfl]; exact ih true
      | false =>
        rw [if_neg (by simp), List.chain'_cons']
        refine ⟨fun y hy => ?_, ih true⟩
        intro ⟨_, hy'⟩
        exact collapseAux_true_head xs y hy hy'
    · rw [if_neg hx]
      rw [List.chain'_cons']
      refine ⟨fun y hy => ?_, ih false⟩
      intro ⟨hx', _⟩
      exact hx (by rw [hx']; rfl)

theorem head?_dropWhile_not (p : Char → Bool) : ∀ (l : List Char) (c : Char),
    (l.dropWhile p).head? = some c → p c = false := by
  intro l
  induction l with
  | nil => intro c hc; simp at hc
  | cons x xs ih =>
    intro c hc
    rw [List.dropWhile_cons] at hc
    by_cases hx : p x
    · rw [if_pos hx] at hc
      exact ih c hc
    · rw [if_neg hx] at hc
      simp only [List.head?_cons, Option.some.injEq] at hc
      rw [← hc]
      simpa using hx

theorem trimRightChars_pre (l : List Char) : trimRightChars l <+: l := by
  rw [trimRightChars]
  have h : l.reverse.dropWhile isPyWs <:+ l.reverse := List.dropWhile_suffix _
  have := List.reverse_prefix.mpr h
  simpa using this

theorem trimRight_getLast_not_ws (l : List Char) (c : Char)
    (hc : (trimRightChars l).getLast? = some c) : isPyWs c = false := by
  rw [trimRightChars, List.getLast?_reverse] at hc
  exact head?_dropWhile_not isPyWs l.reverse c hc

theorem head?_of_pre {p l : List Char} (h : p <+: l) (hp : p ≠ []) :
    l.head? = p.head? := by
  obtain ⟨t, rfl⟩ := h
  cases p with
  | nil => exact absurd rfl hp
  | cons a as => rfl

theorem stripChars_head_not_ws (l : List Char) (c : Char)
    (hc : (stripChars l).head? = some c) : isPyWs c = false := by
  rw [stripChars] at hc
  have hpre := trimRightChars_pre (trimLeftChars l)
  have hne : trimRightChars (trimLeftChars l) ≠ [] := by
    intro h
    rw [h] at hc
    simp at hc
  rw [← head?_of_pre hpre hne] at hc
  exact head?_dropWhile_not isPyWs l c hc

theorem stripChars_getLast_not_ws (l : List Char) (c : Char)
    (hc : (stripChars l).getLast? = some c) : isPyWs c = false :=
  trimRight_getLast_not_ws (trimLeftChars l) c hc

theorem mem_stripChars {l : List Char} {c : Char} (hc : c ∈ stripChars l) : c ∈ l := by
  rw [stripChars] at hc
  have h1 : c ∈ trimLeftChars l := (trimRightChars_pre _).sublist.subset hc
  exact (List.dropWhile_sublist _).subset h1

theorem chain'_stripChars {l : List Char} (h : List.Chain' spaced l) :
    List.Chain' spaced (stripChars l) := by
  rw [stripChars]
  have h1 : List.Chain' spaced (trimLeftChars l) :=
    h.suffix (List.dropWhile_suffix _)
  exact h1.prefix (trimRightChars_pre _)

/-- `str.strip()` is the identity on a string whose first and last
characters are not whitespace. -/
theorem stripChars_eq_self (l : List Char)
    (hhead : ∀ c, l.head? = some c → isPyWs c = false)
    (hlast : ∀ c, l.getLast? = some c → isPyWs c = false) :
    stripChars l = l := by
  have h1 : trimLeftChars l = l := by
    rw [trimLeftChars]
    cases l with
    | nil => rfl
    | cons a as =>
      rw [List.dropWhile_cons, if_neg (by simp [hhead a rfl])]
  rw [stripChars, h1, trimRightChars]
  have h2 : l.reverse.dropWhile isPyWs = l.reverse := by
    cases hrl : l.reverse with
    | nil => rfl
    | cons a as =>
      rw [List.dropWhile_cons]
      have ha : l.getLast? = some a := by
        rw [← List.head?_reverse, hrl]
        rfl
      rw [if_neg (by simp [hlast a ha])]
  rw [h2, List.reverse_reverse]

/-- A word of sanitised text: non-empty and whitespace-free. -/
def SaneWord (w : List Char) : Prop :=
  w ≠ [] ∧ ∀ c ∈ w, isPyWs c = false

/-- In a space-joined list whose join has no leading space, no trailing
space, and no two adjacent spaces, either the list is the singleton empty
word or every word is non-empty. -/
theorem joinChar_words_ne_nil : ∀ (wss : List (List Char)),
    List.Chain' spaced (joinChar ' ' wss) →
    (joinChar ' ' wss).head? ≠ some ' ' →
    (joinChar ' ' wss).getLast? ≠ some ' ' →
    wss = [[]] ∨ ∀ w ∈ wss, w ≠ [] := by
  intro wss
  induction wss with
  | nil => intro _ _ _; right; simp
  | cons w ws ih =>
    intro hchain hhead hlast
    cases ws with
    | nil =>
      cases hw : w with
      | nil => left; rfl
      | cons a as =>
        right
        intro v hv
        rcases List.mem_cons.mp hv with rfl | hv
        · simp [hw]
        · simp at hv
    | cons w' ws' =>
      have hjoin : joinChar ' ' (w :: w' :: ws') = w ++ ' ' :: joinChar ' ' (w' :: ws') := rfl
      have hwne : w ≠ [] := by
        intro hwnil
        apply hhead
        rw [hjoin, hwnil]
        rfl
      cases hJn : joinChar ' ' (w' :: ws') with
      | nil =>
        exfalso
        apply hlast
        rw [hjoin, hJn, List.getLast?_append]
        rfl
      | cons j js =>
        have hsuf : (' ' :: joinChar ' ' (w' :: ws')) <:+ joinChar ' ' (w :: w' :: ws') :=
          ⟨w, hjoin.symm⟩
        have hchainJ : List.Chain' spaced (' ' :: joinChar ' ' (w' :: ws')) :=
          hchain.suffix hsuf
        have hheadJ : (joinChar ' ' (w' :: ws')).head? ≠ some ' ' := by
          intro hcon
          exact (List.chain'_cons'.mp hchainJ).1 ' ' (by rw [hcon]; rfl) ⟨rfl, rfl⟩
        have hlastJ : (joinChar ' ' (w' :: ws')).getLast? ≠ some ' ' := by
          intro hcon
          apply hlast
          rw [hjoin, List.getLast?_append]
          have h2 : (' ' :: joinChar ' ' (w' :: ws')).getLast? = some ' ' := by
            rw [hJn] at hcon ⊢
            rw [List.getLast?_cons_cons]
            exact hcon
          rw [h2]
          rfl
        have hchainJ' : List.Chain' spaced (joinChar ' ' (w' :: ws')) :=
          (List.chain'_cons'.mp hchainJ).2
        rcases ih hchainJ' hheadJ hlastJ with hcon | hall
        · exfalso
          have hnil : joinChar ' ' (w' :: ws') = [] := by rw [hcon]; rfl
          rw [hnil] at hJn
          exact List.cons_ne_nil j js hJn.symm
        · right
          intro v hv
          rcases List.mem_cons.mp hv with rfl | hv
          · exact hwne
          · exact hall v hv

theorem sanitize_data (text : String) :
    (sanitize text).data = stripChars (collapseWs text.data) := rfl

theorem string_eq_empty_iff (l : List Char) : String.mk l = "" ↔ l = [] := by
  constructor
  · intro h
    have := congrArg String.data h
    simpa using this
  · intro h; rw [h]

/-- The words of non-empty sanitised text are non-empty and contain no
whitespace. -/
theorem sanitize_words_sane (text : String) (h : sanitize text ≠ "") :
    ∀ w ∈ splitChar ' ' (sanitize text).data, SaneWord w := by
  set l := (sanitize text).data with hl
  have hlne : l ≠ [] := by
    intro hnil
    apply h
    rw [show sanitize text = String.mk l from rfl, string_eq_empty_iff]
    exact hnil
  have honly : ∀ c ∈ l, isPyWs c → c = ' ' := by
    intro c hc hws
    have hc' : c ∈ collapseWs text.data :=
      mem_stripChars (show c ∈ stripChars (collapseWs text.data) from hc)
    exact collapseAux_only_space false text.data c hc' hws
  have hchain : List.Chain' spaced l := by
    rw [hl, sanitize_data]
    exact chain'_stripChars (collapseAux_chain text.data false)
  have hhead : l.head? ≠ some ' ' := by
    intro hcon
    have := stripChars_head_not_ws (collapseWs text.data) ' ' (by rw [← sanitize_data, ← hl]; exact hcon)
    simp [isPyWs] at this
  have hlast : l.getLast? ≠ some ' ' := by
    intro hcon
    have := stripChars_getLast_not_ws (collapseWs text.data) ' ' (by rw [← sanitize_data, ← hl]; exact hcon)
    simp [isPyWs] at this
  have hround : joinChar ' ' (splitChar ' ' l) = l := joinChar_splitChar ' ' l
  have hne_words := joinChar_words_ne_nil (splitChar ' ' l)
    (by rw [hround]; exact hchain) (by rw [hround]; exact hhead) (by rw [hround]; exact hlast)
  intro w hw
  rcases hne_words with hcon | hall
  · exfalso
    rw [hcon] at hround
    exact hlne (by rw [← hround]; rfl)
  · refine ⟨hall w hw, ?_⟩
    intro c hc
    by_contra hws
    have hcl : c ∈ l := by
      rw [← hround]
      exact mem_joinChar ' ' (splitChar ' ' l) w c hw hc
    have : c = ' ' := honly c hcl (by simpa using hws)
    rw [this] at hc
    exact sep_not_mem_splitChar ' ' l w hw hc

/-! ## String-level word helpers -/

theorem splitSpace_joinSpace (ws : List String) (hne : ws ≠ [])
    (hsp : ∀ w ∈ ws, ' ' ∉ w.data) : splitSpace (joinSpace ws) = ws := by
  rw [splitSpace, joinSpace]
  rw [show (String.mk (joinChar ' ' (ws.map String.data))).data
      = joinChar ' ' (ws.map String.data) from rfl]
  rw [splitChar_joinChar ' ' (ws.map String.data) (by simpa using hne)
    (by intro w hw
        obtain ⟨v, hv, rfl⟩ := List.mem_map.mp hw
        exact hsp v hv)]
  rw [List.map_map]
  have hid : String.mk ∘ String.data = id := funext fun _ => rfl
  rw [hid, List.map_id]

theorem joinSpace_splitSpace (s : String) : joinSpace (splitSpace s) = s := by
  rw [splitSpace, joinSpace, List.map_map]
  have hid : String.data ∘ String.mk = id := funext fun _ => rfl
  rw [hid, List.map_id]
  rw [show String.mk (joinChar ' ' (splitChar ' ' s.data)) = String.mk s.data
    from by rw [joinChar_splitChar]]

theorem splitSpace_ne_nil (s : String) : splitSpace s ≠ [] := by
  rw [splitSpace]
  intro h
  exact splitChar_ne_nil ' ' s.data (by simpa using h)

theorem joinSpace_sane_ne_empty (w : String) (rest : List String) (hw : SaneWord w.data) :
    joinSpace (w :: rest) ≠ "" := by
  rw [joinSpace]
  intro h
  rw [string_eq_empty_iff] at h
  exact joinChar_ne_nil ' ' w.data (rest.map String.data) hw.1 h

theorem pyStrip_joinSpace_sane (ws : List String) (hsane : ∀ w ∈ ws, SaneWord w.data) :
    pyStrip (joinSpace ws) = joinSpace ws := by
  rw [pyStrip, joinSpace]
  rw [show (String.mk (joinChar ' ' (ws.map String.data))).data
      = joinChar ' ' (ws.map String.data) from rfl]
  rw [stripChars_eq_self]
  · intro c hc
    cases ws with
    | nil => simp [joinChar] at hc
    | cons w rest =>
      rw [List.map_cons] at hc
      rw [joinChar_head_ne_nil ' ' w.data (rest.map String.data)
        (hsane w (List.mem_cons_self w rest)).1] at hc
      have hcw : c ∈ w.data := by
        cases hd : w.data with
        | nil => rw [hd] at hc; simp at hc
        | cons a as =>
          rw [hd] at hc
          simp only [List.head?_cons, Option.some.injEq] at hc
          rw [← hc]
          exact List.mem_cons_self a as
      exact (hsane w (List.mem_cons_self w rest)).2 c hcw
  · intro c hc
    refine joinChar_getLast_not_ws (ws.map String.data) ?_ c hc
    intro v hv
    obtain ⟨u, hu, rfl⟩ := List.mem_map.mp hv
    exact hsane u hu

/-! ## Chunk-loop characterisation -/

/-- One iteration of the `chunk_text` loop on sanitised words: emit the
window `[start, min(start+size, W))` and continue from
`min(start+size, W) - overlap` (truncated subtraction = the `if start < 0`
clamp), stopping when the window reaches the end. -/
theorem chunkLoop_step (size overlap : ℕ) (ws : List String) (fuel start : ℕ)
    (hsize : 0 < size) (hstart : start < ws.length)
    (hsane : ∀ w ∈ ws, SaneWord w.data) :
    chunkLoop size overlap ws (fuel + 1) start =
      joinSpace ((ws.drop start).take (min (start + size) ws.length - start)) ::
        (if min (start + size) ws.length = ws.length then []
         else chunkLoop size overlap ws fuel (min (start + size) ws.length - overlap)) := by
  have hwinsane : ∀ w ∈ (ws.drop start).take (min (start + size) ws.length - start),
      SaneWord w.data := by
    intro w hw
    exact hsane w (((List.take_sublist _ _).trans (List.drop_sublist _ _)).subset hw)
  have hwlen : ((ws.drop start).take (min (start + size) ws.length - start)).length
      = min (start + size) ws.length - start := by
    rw [List.length_take, List.length_drop]
    omega
  have hwne : (ws.drop start).take (min (start + size) ws.length - start) ≠ [] := by
    intro hnil
    rw [hnil] at hwlen
    simp at hwlen
    omega
  have hstripped := pyStrip_joinSpace_sane _ hwinsane
  have hne : joinSpace ((ws.drop start).take (min (start + size) ws.length - start)) ≠ "" := by
    cases hwin : (ws.drop start).take (min (start + size) ws.length - start) with
    | nil => exact absurd hwin hwne
    | cons w0 rest =>
      exact joinSpace_sane_ne_empty w0 rest (hwinsane w0 (hwin ▸ List.mem_cons_self w0 rest))
  simp only [chunkLoop, if_pos hstart]
  rw [hstripped, if_neg hne]

theorem chunkLoop_cov (size overlap : ℕ) (ws : List String)
    (hso : overlap < size) (hsane : ∀ w ∈ ws, SaneWord w.data) :
    ∀ (fuel start : ℕ), start < ws.length → ws.length - start ≤ fuel →
      chunkLoop size overlap ws fuel start ≠ []
      ∧ splitSpace ((chunkLoop size overlap ws fuel start).headD "")
          = (ws.drop start).take (min (start + size) ws.length - start)
      ∧ splitSpace ((chunkLoop size overlap ws fuel start).headD "")
          ++ ((chunkLoop size overlap ws fuel start).tail.flatMap
              fun c => (splitSpace c).drop overlap)
        = ws.drop start := by
  intro fuel
  induction fuel with
  | zero => intro start h1 h2; omega
  | succ fuel ih =>
    intro start hstart hfuel
    have hsize : 0 < size := by omega
    have hstep := chunkLoop_step size overlap ws fuel start hsize hstart hsane
    have hwinsane : ∀ w ∈ (ws.drop start).take (min (start + size) ws.length - start),
        SaneWord w.data := by
      intro w hw
      exact hsane w (((List.take_sublist _ _).trans (List.drop_sublist _ _)).subset hw)
    have hwsp : ∀ w ∈ (ws.drop start).take (min (start + size) ws.length - start),
        ' ' ∉ w.data := by
      intro w hw hsp
      have := (hwinsane w hw).2 ' ' hsp
      simp [isPyWs] at this
    have hwlen : ((ws.drop start).take (min (start + size) ws.length - start)).length
        = min (start + size) ws.length - start := by
      rw [List.length_take, List.length_drop]
      omega
    have hwne : (ws.drop start).take (min (start + size) ws.length - start) ≠ [] := by
      intro hnil
      rw [hnil] at hwlen
      simp at hwlen
      omega
    have hsplit : splitSpace (joinSpace
        ((ws.drop start).take (min (start + size) ws.length - start)))
        = (ws.drop start).take (min (start + size) ws.length - start) :=
      splitSpace_joinSpace _ hwne hwsp
    by_cases hend : min (start + size) ws.length = ws.length
    · rw [hstep, if_pos hend]
      refine ⟨by simp, by simpa using hsplit, ?_⟩
      simp only [List.headD_cons, List.tail_cons, List.flatMap_nil, List.append_nil]
      rw [hsplit, hend]
      have : ws.length - start ≤ (ws.drop start).length := by
        rw [List.length_drop]
      rw [List.take_of_length_le (by rw [List.length_drop])]
    · rw [hstep, if_neg hend]
      have he : min (start + size) ws.length = start + size := by omega
      have hstart' : min (start + size) ws.length - overlap = start + (size - overlap) := by
        omega
      have hlt' : start + (size - overlap) < ws.length := by omega
      have hfuel' : ws.length - (start + (size - overlap)) ≤ fuel := by omega
      obtain ⟨hne', hhead', hcov'⟩ := ih (start + (size - overlap)) hlt' hfuel'
      rw [hstart']
      cases hrest : chunkLoop size overlap ws fuel (start + (size - overlap)) with
      | nil => exact absurd hrest hne'
      | cons r rs =>
        rw [hrest] at hhead' hcov'
        refine ⟨by simp, by simpa using hsplit, ?_⟩
        simp only [List.headD_cons, List.tail_cons, List.flatMap_cons]
        rw [hsplit]
        have hoverlap_le : overlap ≤ (splitSpace r).length := by
          rw [show (r :: rs).headD "" = r from rfl] at hhead'
          rw [hhead', List.length_take, List.length_drop]
          omega
        have hdrop_append : (splitSpace r).drop overlap ++ rs.flatMap (fun c => (splitSpace c).drop overlap)
            = (splitSpace r ++ rs.flatMap fun c => (splitSpace c).drop overlap).drop overlap := by
          rw [List.drop_append_of_le_length hoverlap_le]
        rw [hdrop_append]
        rw [show (r :: rs).headD "" = r from rfl] at hcov'
        rw [show (r :: rs).tail = rs from rfl] at hcov'
        rw [hcov']
        rw [List.drop_drop]
        have harith : start + (size - overlap) + overlap = start + size := by omega
        rw [harith]
        have : ws.drop (start + size) = (ws.drop start).drop (min (start + size) ws.length - start) := by
          rw [List.drop_drop]
          congr 1
          omega
        rw [this, List.take_append_drop]

/-! ## `sanitize` is the identity on space-joined sane words -/

theorem mem_joinChar_inv (sep : Char) : ∀ (wss : List (List Char)) (c : Char),
    c ∈ joinChar sep wss → c = sep ∨ ∃ w ∈ wss, c ∈ w := by
  intro wss
  induction wss with
  | nil => intro c hc; simp [joinChar] at hc
  | cons w ws ih =>
    intro c hc
    cases ws with
    | nil => exact Or.inr ⟨w, by simp, hc⟩
    | cons w' ws' =>
      rw [show joinChar sep (w :: w' :: ws') = w ++ sep :: joinChar sep (w' :: ws') from rfl] at hc
      rcases List.mem_append.mp hc with hcw | hctail
      · exact Or.inr ⟨w, by simp, hcw⟩
      · rcases List.mem_cons.mp hctail with rfl | hcj
        · exact Or.inl rfl
        · rcases ih c hcj with rfl | ⟨v, hv, hcv⟩
          · exact Or.inl rfl
          · exact Or.inr ⟨v, List.mem_cons_of_mem w hv, hcv⟩

theorem chain'_of_no_space : ∀ l : List Char, (∀ c ∈ l, c ≠ ' ') →
    List.Chain' spaced l := by
  intro l
  induction l with
  | nil => intro _; simp
  | cons c cs ih =>
    intro h
    rw [List.chain'_cons']
    refine ⟨fun y _ => ?_, ih fun y hy => h y (List.mem_cons_of_mem c hy)⟩
    intro ⟨hc, _⟩
    exact h c (List.mem_cons_self c cs) hc

theorem chain'_joinChar_sane : ∀ (wss : List (List Char)),
    (∀ w ∈ wss, w ≠ [] ∧ ∀ c ∈ w, isPyWs c = false) →
    List.Chain' spaced (joinChar ' ' wss) := by
  intro wss
  induction wss with
  | nil => simp [joinChar]
  | cons w ws ih =>
    intro hsane
    have hwns : ∀ c ∈ w, c ≠ ' ' := by
      intro c hc hsp
      have := (hsane w (List.mem_cons_self w ws)).2 c hc
      rw [hsp] at this
      simp [isPyWs] at this
    cases ws with
    | nil => exact chain'_of_no_space w hwns
    | cons w' ws' =>
      show List.Chain' spaced (w ++ ' ' :: joinChar ' ' (w' :: ws'))
      rw [List.chain'_append]
      refine ⟨chain'_of_no_space w hwns, ?_, ?_⟩
      · rw [List.chain'_cons']
        refine ⟨fun y hy => ?_, ih fun v hv => hsane v (List.mem_cons_of_mem w hv)⟩
        intro ⟨_, hy'⟩
        have hlem := joinChar_head_ne_nil ' ' w' ws' (hsane w' (by simp)).1
        rw [Option.mem_def, hlem] at hy
        have hyw : y ∈ w' := by
          cases hd : w' with
          | nil => rw [hd] at hy; simp at hy
          | cons a as =>
            rw [hd] at hy
            simp only [List.head?_cons, Option.some.injEq] at hy
            rw [← hy]
            exact List.mem_cons_self a as
        have hns := (hsane w' (by simp)).2 y hyw
        rw [hy'] at hns
        simp [isPyWs] at hns
      · intro x hx y hy
        intro ⟨hx', _⟩
        have hxw : x ∈ w := List.mem_of_getLast?_eq_some (by simpa using hx)
        exact hwns x hxw hx'

theorem collapseAux_eq_self : ∀ (l : List Char),
    (∀ c ∈ l, isPyWs c → c = ' ') → List.Chain' spaced l →
    collapseAux false l = l ∧ (l.head? ≠ some ' ' → collapseAux true l = l) := by
  intro l
  induction l with
  | nil => intro _ _; exact ⟨rfl, fun _ => rfl⟩
  | cons c cs ih =>
    intro honly hchain
    have hchain' := List.chain'_cons'.mp hchain
    obtain ⟨ihf, iht⟩ := ih (fun y hy => honly y (List.mem_cons_of_mem c hy)) hchain'.2
    by_cases hws : isPyWs c
    · have hc : c = ' ' := honly c (List.mem_cons_self c cs) hws
      have hcshead : cs.head? ≠ some ' ' := by
        intro hcon
        exact hchain'.1 ' ' (by rw [hcon]; rfl) ⟨hc, rfl⟩
      constructor
      · rw [collapseAux, if_pos hws, if_neg (by simp), iht hcshead, hc]
      · intro hhead
        exact absurd (show (c :: cs).head? = some ' ' by rw [hc]; rfl) hhead
    · constructor
      · rw [collapseAux, if_neg hws, ihf]
      · intro _
        rw [collapseAux, if_neg hws, ihf]

/-- `sanitize` is the identity on a non-empty space-join of sane words. -/
theorem sanitize_joinSpace_sane (ws : List String)
    (hsane : ∀ w ∈ ws, SaneWord w.data) :
    sanitize (joinSpace ws) = joinSpace ws := by
  have hsane' : ∀ w ∈ ws.map String.data, w ≠ [] ∧ ∀ c ∈ w, isPyWs c = false := by
    intro w hw
    obtain ⟨v, hv, rfl⟩ := List.mem_map.mp hw
    exact hsane v hv
  have honly : ∀ c ∈ joinChar ' ' (ws.map String.data), isPyWs c → c = ' ' := by
    intro c hc hws
    rcases mem_joinChar_inv ' ' _ c hc with rfl | ⟨v, hv, hcv⟩
    · rfl
    · have := (hsane' v hv).2 c hcv
      rw [hws] at this
      simp at this
  have hchain := chain'_joinChar_sane (ws.map String.data) hsane'
  have hheadns : ∀ c, (joinChar ' ' (ws.map String.data)).head? = some c → isPyWs c = false := by
    intro c hc
    cases ws with
    | nil => simp [joinChar] at hc
    | cons w rest =>
      rw [List.map_cons, joinChar_head_ne_nil ' ' w.data (rest.map String.data)
        (hsane w (List.mem_cons_self w rest)).1] at hc
      have hcw : c ∈ w.data := by
        cases hd : w.data with
        | nil => rw [hd] at hc; simp at hc
        | cons a as =>
          rw [hd] at hc
          simp only [List.head?_cons, Option.some.injEq] at hc
          rw [← hc]
          exact List.mem_cons_self a as
      exact (hsane w (List.mem_cons_self w rest)).2 c hcw
  have hhead : (joinChar ' ' (ws.map String.data)).head? ≠ some ' ' := by
    intro hcon
    have := hheadns ' ' hcon
    simp [isPyWs] at this
  have hcollapse : collapseWs (joinChar ' ' (ws.map String.data))
      = joinChar ' ' (ws.map String.data) :=
    (collapseAux_eq_self _ honly hchain).1
  have hstrip : stripChars (joinChar ' ' (ws.map String.data))
      = joinChar ' ' (ws.map String.data) := by
    refine stripChars_eq_self _ hheadns ?_
    intro c hc
    exact joinChar_getLast_not_ws (ws.map String.data) hsane' c hc
  show String.mk (stripChars (collapseWs (joinSpace ws).data)) = joinSpace ws
  rw [show (joinSpace ws).data = joinChar ' ' (ws.map String.data) from rfl,
    hcollapse, hstrip]
  rfl

/-! ## Chunk coverage (C1) and window offsets (C8) -/

theorem chunkText_eq_loop (size overlap : ℕ) (text : String) (hs : sanitize text ≠ "") :
    chunkText size overlap text =
      chunkLoop size overlap (splitSpace (sanitize text))
        ((splitSpace (sanitize text)).length + 1) 0 := by
  rw [chunkText]
  simp only [if_neg hs]

theorem splitSpace_sane (text : String) (hs : sanitize text ≠ "") :
    ∀ v ∈ splitSpace (sanitize text), SaneWord v.data := by
  intro v hv
  rw [splitSpace] at hv
  obtain ⟨u, hu, rfl⟩ := List.mem_map.mp hv
  exact sanitize_words_sane text hs u hu

/-- **C1.** `DocumentProcessor.chunk_text` with `overlap < size` covers the
whitespace-normalised text with no gaps: the chunk list is empty exactly
when the sanitised text is empty, and rejoining the first chunk's words with
every later chunk's words after dropping the `overlap` repeated words
reproduces the sanitised text exactly. -/
theorem chunk_coverage (size overlap : ℕ) (text : String) (h : overlap < size) :
    (sanitize text = "" ↔ chunkText size overlap text = [])
    ∧ (sanitize text ≠ "" →
        joinSpace (splitSpace ((chunkText size overlap text).headD "")
            ++ (chunkText size overlap text).tail.flatMap
                fun c => (splitSpace c).drop overlap)
          = sanitize text) := by
  by_cases hs : sanitize text = ""
  · refine ⟨⟨fun _ => ?_, fun _ => hs⟩, fun h' => absurd hs h'⟩
    rw [chunkText]
    simp only [if_pos hs]
  · have hsaneS := splitSpace_sane text hs
    have hlen : 0 < (splitSpace (sanitize text)).length := by
      cases hwn : splitSpace (sanitize text) with
      | nil => exact absurd hwn (splitSpace_ne_nil _)
      | cons a as => simp
    have hcov := chunkLoop_cov size overlap (splitSpace (sanitize text)) h hsaneS
      ((splitSpace (sanitize text)).length + 1) 0 hlen (by omega)
    have hct := chunkText_eq_loop size overlap text hs
    refine ⟨⟨fun hcon => absurd hcon hs, fun hnil => ?_⟩, fun _ => ?_⟩
    · exact absurd (hct ▸ hnil) hcov.1
    · rw [hct]
      have hcov3 := hcov.2.2
      rw [List.drop_zero] at hcov3
      rw [hcov3, joinSpace_splitSpace]

theorem chunk_coverage_witness :
    (1 < 3) ∧
      ((sanitize "a b c d e" = "" ↔ chunkText 3 1 "a b c d e" = [])
       ∧ (sanitize "a b c d e" ≠ "" →
          joinSpace (splitSpace ((chunkText 3 1 "a b c d e").headD "")
              ++ (chunkText 3 1 "a b c d e").tail.flatMap
                  fun c => (splitSpace c).drop 1)
            = sanitize "a b c d e")) :=
  ⟨by omega, chunk_coverage 3 1 "a b c d e" (by omega)⟩

/-- **C8.** With `chunk_size = 800`, `chunk_overlap = 120`, any input whose
sanitised form has exactly 2000 words chunks into exactly three windows at
word offsets 0, 680 and 1360, the last ending at word 2000; and in general
(second conjunct) each loop iteration on sanitised words emits the window
`[start, min(start+size, W))` and advances the start by `size - overlap`
words (truncated subtraction realising the clamp-to-0 guard), stopping once
the window reaches `W`. -/
theorem chunk_windows_2000 (text : String)
    (h2000 : (splitSpace (sanitize text)).length = 2000) :
    chunkText 800 120 text =
      [joinSpace ((splitSpace (sanitize text)).take 800),
       joinSpace (((splitSpace (sanitize text)).drop 680).take 800),
       joinSpace (((splitSpace (sanitize text)).drop 1360).take 640)]
    ∧ (∀ (size overlap start fuel : ℕ) (ws : List String), 0 < size → start < ws.length →
        (∀ v ∈ ws, SaneWord v.data) →
        chunkLoop size overlap ws (fuel + 1) start =
          joinSpace ((ws.drop start).take (min (start + size) ws.length - start)) ::
            (if min (start + size) ws.length = ws.length then []
             else chunkLoop size overlap ws fuel (min (start + size) ws.length - overlap))) := by
  constructor
  · have hs : sanitize text ≠ "" := by
      intro hcon
      rw [hcon] at h2000
      simp [splitSpace, splitChar] at h2000
    have hsaneS := splitSpace_sane text hs
    have hl : (splitSpace (sanitize text)).length = 2000 := h2000
    rw [chunkText_eq_loop 800 120 text hs, hl]
    rw [chunkLoop_step 800 120 _ 2000 0 (by norm_num) (by omega) hsaneS]
    rw [hl]
    rw [if_neg (by omega)]
    have e1 : min (0 + 800) 2000 = 800 := by omega
    rw [e1]
    norm_num
    rw [chunkLoop_step 800 120 _ 1999 680 (by norm_num) (by omega) hsaneS]
    rw [hl]
    rw [if_neg (by omega)]
    have e2 : min (680 + 800) 2000 = 1480 := by omega
    rw [e2]
    norm_num
    rw [chunkLoop_step 800 120 _ 1998 1360 (by norm_num) (by omega) hsaneS]
    rw [hl]
    rw [if_pos (by omega)]
    have e3 : min (1360 + 800) 2000 = 2000 := by omega
    rw [e3]
  · intro size overlap start fuel ws hsize hstart hsane
    exact chunkLoop_step size overlap ws fuel start hsize hstart hsane

/-- A concrete 2000-word input for the C8 witness. -/
def text2000 : String := joinSpace (List.replicate 2000 "a")

theorem text2000_words : splitSpace (sanitize text2000) = List.replicate 2000 "a" := by
  have hsane : ∀ w ∈ List.replicate 2000 "a", SaneWord w.data := by
    intro w hw
    rw [List.eq_of_mem_replicate hw]
    exact ⟨by decide, by decide⟩
  rw [text2000, sanitize_joinSpace_sane _ hsane]
  refine splitSpace_joinSpace _ (by decide) ?_
  intro w hw
  rw [List.eq_of_mem_replicate hw]
  decide

theorem chunk_windows_2000_witness :
    (splitSpace (sanitize text2000)).length = 2000 ∧
      chunkText 800 120 text2000 =
        [joinSpace ((splitSpace (sanitize text2000)).take 800),
         joinSpace (((splitSpace (sanitize text2000)).drop 680).take 800),
         joinSpace (((splitSpace (sanitize text2000)).drop 1360).take 640)] := by
  have hlen : (splitSpace (sanitize text2000)).length = 2000 := by
    rw [text2000_words, List.length_replicate]
  exact ⟨hlen, (chunk_windows_2000 text2000 hlen).1⟩

/-! ## Dedent and sentinel-containment machinery (C7) -/

theorem lcp_prefix_left : ∀ a b : List Char, lcp a b <+: a := by
  intro a
  induction a with
  | nil => intro b; cases b <;> simp [lcp]
  | cons x xs ih =>
    intro b
    cases b with
    | nil => simp [lcp]
    | cons y ys =>
      rw [lcp]
      by_cases h : x = y
      · rw [if_pos h]
        obtain ⟨t, ht⟩ := ih ys
        exact ⟨t, by rw [List.cons_append, ht]⟩
      · rw [if_neg h]
        exact List.nil_prefix

theorem lcp_prefix_right : ∀ a b : List Char, lcp a b <+: b := by
  intro a
  induction a with
  | nil => intro b; cases b <;> simp [lcp]
  | cons x xs ih =>
    intro b
    cases b with
    | nil => simp [lcp]
    | cons y ys =>
      rw [lcp]
      by_cases h : x = y
      · rw [if_pos h, h]
        obtain ⟨t, ht⟩ := ih ys
        exact ⟨t, by rw [List.cons_append, ht]⟩
      · rw [if_neg h]
        exact List.nil_prefix

theorem foldl_lcp_pre : ∀ (is : List (List Char)) (i j : List Char),
    j ∈ i :: is → is.foldl lcp i <+: j := by
  intro is
  induction is with
  | nil =>
    intro i j hj
    rcases List.mem_cons.mp hj with rfl | hj
    · exact List.prefix_refl j
    · simp at hj
  | cons h t ih =>
    intro i j hj
    rw [List.foldl_cons]
    rcases List.mem_cons.mp hj with rfl | hj
    · exact ((ih (lcp j h) (lcp j h) (List.mem_cons_self _ _)).trans (lcp_prefix_left j h))
    · rcases List.mem_cons.mp hj with rfl | hj
      · exact ((ih (lcp i j) (lcp i j) (List.mem_cons_self _ _)).trans (lcp_prefix_right i j))
      · exact ih (lcp i h) j (List.mem_cons_of_mem _ hj)

theorem dedentMargin_pre (lines : List (List Char)) (ln : List Char)
    (hmem : ln ∈ lines) (hne : ln ≠ []) :
    dedentMargin lines <+: ln.takeWhile isSpaceTab := by
  rw [dedentMargin]
  have hmem' : ln.takeWhile isSpaceTab ∈ (lines.filter (· ≠ [])).map (·.takeWhile isSpaceTab) := by
    refine List.mem_map.mpr ⟨ln, ?_, rfl⟩
    rw [List.mem_filter]
    exact ⟨hmem, by simpa using hne⟩
  cases hml : (lines.filter (· ≠ [])).map (·.takeWhile isSpaceTab) with
  | nil => rw [hml] at hmem'; simp at hmem'
  | cons i is =>
    rw [hml] at hmem'
    exact foldl_lcp_pre is i _ hmem'

theorem infix_joinChar_of_mem (sep : Char) : ∀ (lines : List (List Char)) (ln pat : List Char),
    ln ∈ lines → pat <:+: ln → pat <:+: joinChar sep lines := by
  intro lines
  induction lines with
  | nil => intro ln pat hln; simp at hln
  | cons w ws ih =>
    intro ln pat hln hpat
    rcases List.mem_cons.mp hln with rfl | hln
    · cases ws with
      | nil => exact hpat
      | cons w' ws' =>
        show pat <:+: ln ++ sep :: joinChar sep (w' :: ws')
        obtain ⟨s, t, hst⟩ := hpat
        exact ⟨s, t ++ sep :: joinChar sep (w' :: ws'), by rw [← hst]; simp⟩
    · cases ws with
      | nil => simp at hln
      | cons w' ws' =>
        have hj : pat <:+: joinChar sep (w' :: ws') := ih ln pat hln hpat
        show pat <:+: w ++ sep :: joinChar sep (w' :: ws')
        obtain ⟨s, t, hst⟩ := hj
        exact ⟨w ++ sep :: s, t, by rw [← hst]; simp⟩

theorem mem_tail_splitChar (sep : Char) (ln v : List Char) (hsep : sep ∉ ln) :
    ∀ u : List Char, ln ∈ (splitChar sep (u ++ sep :: (ln ++ sep :: v))).tail := by
  intro u
  induction u with
  | nil =>
    rw [List.nil_append, splitChar, if_pos rfl, List.tail_cons,
      splitChar_append_sep sep ln v hsep]
    exact List.mem_cons_self ln _
  | cons c u' ih =>
    rw [List.cons_append, splitChar]
    by_cases hc : c = sep
    · rw [if_pos hc, List.tail_cons]
      exact List.mem_of_mem_tail ih
    · rw [if_neg hc]
      cases hs : splitChar sep (u' ++ sep :: (ln ++ sep :: v)) with
      | nil => exact absurd hs (splitChar_ne_nil sep _)
      | cons w ws =>
        rw [hs] at ih
        simpa using ih

theorem mem_splitChar_of_infix (sep : Char) (ln l : List Char)
    (hshape : (sep :: (ln ++ [sep])) <:+: l) (hsep : sep ∉ ln) :
    ln ∈ splitChar sep l := by
  obtain ⟨u, v, huv⟩ := hshape
  have hl : l = u ++ sep :: (ln ++ sep :: v) := by
    rw [← huv]
    simp
  rw [hl]
  exact List.mem_of_mem_tail (mem_tail_splitChar sep ln v hsep u)

theorem infix_dropWhile_of_head {pat l : List Char}
    (hhead : ∀ c, pat.head? = some c → isPyWs c = false)
    (h : pat <:+: l) : pat <:+: l.dropWhile isPyWs := by
  obtain ⟨u, v, huv⟩ := h
  induction u generalizing l with
  | nil =>
    subst huv
    rw [List.nil_append]
    cases hp : pat with
    | nil => simp
    | cons c cs =>
      rw [List.cons_append, List.dropWhile_cons,
        if_neg (by simp [hhead c (by rw [hp]; rfl)])]
      exact ⟨[], v, by simp⟩
  | cons a u' ih =>
    subst huv
    simp only [List.cons_append, List.dropWhile_cons]
    by_cases ha : isPyWs a
    · rw [if_pos ha]
      exact ih rfl
    · rw [if_neg ha]
      exact ⟨a :: u', v, by simp⟩

theorem infix_stripChars_of_ends {pat l : List Char}
    (hhead : ∀ c, pat.head? = some c → isPyWs c = false)
    (hlast : ∀ c, pat.getLast? = some c → isPyWs c = false)
    (h : pat <:+: l) : pat <:+: stripChars l := by
  rw [stripChars, trimLeftChars]
  have h1 : pat <:+: l.dropWhile isPyWs := infix_dropWhile_of_head hhead h
  rw [trimRightChars]
  have h2 : pat.reverse <:+: (l.dropWhile isPyWs).reverse := by
    exact List.reverse_infix.mpr (by simpa using h1)
  have h3 : pat.reverse <:+: ((l.dropWhile isPyWs).reverse.dropWhile isPyWs) := by
    refine infix_dropWhile_of_head ?_ h2
    intro c hc
    rw [List.head?_reverse] at hc
    exact hlast c hc
  have h4 : pat.reverse.reverse <:+:
      ((l.dropWhile isPyWs).reverse.dropWhile isPyWs).reverse :=
    List.reverse_infix.mpr (by simpa using h3)
  simpa using h4

/-- The central C7 lemma: if a line `ln` (newline-free, not
whitespace-only) ends in `pat` robustly — `pat` stays a suffix after
removing any `n ≤ (ln.takeWhile isSpaceTab).length` leading characters —
and the raw template contains `'\n' ++ ln ++ '\n'`, then `pat` survives
`textwrap.dedent` followed by `str.strip()`. -/
theorem sentinel_infix (l ln pat : List Char)
    (hshape : ('\n' :: (ln ++ ['\n'])) <:+: l)
    (hnl : '\n' ∉ ln)
    (hne : ln ≠ [])
    (hblank : blankWsLine ln = ln)
    (hdrop : ∀ n, n ≤ (ln.takeWhile isSpaceTab).length → pat <:+ ln.drop n)
    (hhead : ∀ c, pat.head? = some c → isPyWs c = false)
    (hlast : ∀ c, pat.getLast? = some c → isPyWs c = false) :
    pat <:+: stripChars (dedentChars l) := by
  refine infix_stripChars_of_ends hhead hlast ?_
  rw [dedentChars]
  have hmem : ln ∈ splitChar '\n' l := mem_splitChar_of_infix '\n' ln l hshape hnl
  have hmemb : ln ∈ (splitChar '\n' l).map blankWsLine :=
    List.mem_map.mpr ⟨ln, hmem, hblank⟩
  have hmargin := dedentMargin_pre ((splitChar '\n' l).map blankWsLine) ln hmemb hne
  set margin := dedentMargin ((splitChar '\n' l).map blankWsLine) with hmdef
  have hmpre : margin <+: ln := hmargin.trans (List.takeWhile_prefix _)
  have hmlen : margin.length ≤ (ln.takeWhile isSpaceTab).length :=
    hmargin.length_le
  have hline : (fun lue => if margin.isPrefixOf lue then lue.drop margin.length else lue) ln
      = ln.drop margin.length := by
    simp only [List.isPrefixOf_iff_prefix.mpr hmpre, if_true]
  have hfinal : ln.drop margin.length ∈
      ((splitChar '\n' l).map blankWsLine).map
        fun lue => if margin.isPrefixOf lue then lue.drop margin.length else lue := by
    refine List.mem_map.mpr ⟨ln, hmemb, hline⟩
  refine infix_joinChar_of_mem '\n' _ (ln.drop margin.length) pat hfinal ?_
  exact (hdrop margin.length hmlen).isInfix

/-- String-level wrapper for `sentinel_infix`: if the raw template splits as
`pre ++ seg ++ post` with the full sentinel line (with both its newline
delimiters) inside `seg`, the sentinel survives `dedent` + `strip`. -/
theorem strContains_of_template (raw pre seg post ln pat : String)
    (hsplitRaw : raw = pre ++ seg ++ post)
    (hseg : ('\n' :: (ln.data ++ ['\n'])) <:+: seg.data)
    (hnl : '\n' ∉ ln.data) (hne : ln.data ≠ [])
    (hblank : blankWsLine ln.data = ln.data)
    (hdrop : ∀ n, n ≤ (ln.data.takeWhile isSpaceTab).length → pat.data <:+ ln.data.drop n)
    (hhead : ∀ c, pat.data.head? = some c → isPyWs c = false)
    (hlast : ∀ c, pat.data.getLast? = some c → isPyWs c = false) :
    strContains (pyStrip (dedent raw)) pat := by
  show pat.data <:+: stripChars (dedentChars raw.data)
  refine sentinel_infix raw.data ln.data pat.data ?_ hnl hne hblank hdrop hhead hlast
  refine hseg.trans ?_
  refine ⟨pre.data, post.data, ?_⟩
  rw [hsplitRaw]
  simp

/-- **C7 (amended).** With empty constraints and empty context snippets the
backend `SowService._build_prompt` embeds the literals `"None provided"` and
`"No retrieved context"`, while `SOWGenerator._build_prompt` embeds
`"None provided"` and `"No context retrieved"`; and with no generation
backend configured both services return the assembled prompt verbatim as the
artifact body. -/
theorem prompt_sentinels_spec :
    (∀ (pid tone : String) (reqs : List String),
        strContains (sowServiceBuildPrompt pid reqs [] [] tone) "None provided"
        ∧ strContains (sowServiceBuildPrompt pid reqs [] [] tone) "No retrieved context")
    ∧ (∀ (pd tone : String) (reqs : List String),
        strContains (sowGeneratorBuildPrompt pd reqs [] [] tone) "None provided"
        ∧ strContains (sowGeneratorBuildPrompt pd reqs [] [] tone) "No context retrieved")
    ∧ (∀ (pid tone : String) (reqs cons snips : List String),
        sowServiceGenerateBody none pid reqs cons snips tone
          = sowServiceBuildPrompt pid reqs cons snips tone)
    ∧ (∀ (pd tone : String) (reqs cons snips : List String),
        generateSow none pd reqs cons snips tone
          = sowGeneratorBuildPrompt pd reqs cons snips tone) := by
  refine ⟨?_, ?_, fun _ _ _ _ _ => rfl, fun _ _ _ _ _ => rfl⟩
  · intro pid tone reqs
    have hb : sowServiceBuildPrompt pid reqs [] [] tone =
        pyStrip (dedent
          ("\n            Create a structured Statement of Work for project " ++ pid ++
           " in a " ++ tone ++
           " tone.\n            Include executive summary, scope, deliverables, milestones, assumptions, dependencies,\n            acceptance criteria, and a RACI table. Use bullet lists where helpful.\n\n            Requirements:\n            - " ++
           pyJoin "\n- " reqs ++
           "\n\n            Constraints:\n            - " ++ "None provided" ++
           "\n\n            Retrieved context:\n            " ++ "No retrieved context" ++
           "\n            ")) := rfl
    rw [hb]
    constructor
    · refine strContains_of_template _
        ("\n            Create a structured Statement of Work for project " ++ pid ++
         " in a " ++ tone ++
         " tone.\n            Include executive summary, scope, deliverables, milestones, assumptions, dependencies,\n            acceptance criteria, and a RACI table. Use bullet lists where helpful.\n\n            Requirements:\n            - " ++
         pyJoin "\n- " reqs)
        ("\n\n            Constraints:\n            - " ++ "None provided" ++
         "\n\n            Retrieved context:\n            ")
        ("No retrieved context" ++ "\n            ")
        "            - None provided" "None provided"
        (by simp [String.append_assoc]) (by decide) (by decide) (by decide) (by decide)
        (by decide) ?_ ?_
      · intro c hc
        rw [show ("None provided".data.head? : Option Char) = some 'N' from rfl] at hc
        simp only [Option.some.injEq] at hc
        rw [← hc]
        decide
      · intro c hc
        rw [show ("None provided".data.getLast? : Option Char) = some 'd' from by decide] at hc
        simp only [Option.some.injEq] at hc
        rw [← hc]
        decide
    · refine strContains_of_template _
        ("\n            Create a structured Statement of Work for project " ++ pid ++
         " in a " ++ tone ++
         " tone.\n            Include executive summary, scope, deliverables, milestones, assumptions, dependencies,\n            acceptance criteria, and a RACI table. Use bullet lists where helpful.\n\n            Requirements:\n            - " ++
         pyJoin "\n- " reqs ++
         "\n\n            Constraints:\n            - " ++ "None provided")
        ("\n\n            Retrieved context:\n            " ++ "No retrieved context" ++
         "\n            ")
        ""
        "            No retrieved context" "No retrieved context"
        (by simp [String.append_assoc]) (by decide) (by decide) (by decide) (by decide)
        (by decide) ?_ ?_
      · intro c hc
        rw [show ("No retrieved context".data.head? : Option Char) = some 'N' from rfl] at hc
        simp only [Option.some.injEq] at hc
        rw [← hc]
        decide
      · intro c hc
        rw [show ("No retrieved context".data.getLast? : Option Char) = some 't' from by decide] at hc
        simp only [Option.some.injEq] at hc
        rw [← hc]
        decide
  · intro pd tone reqs
    have hb : sowGeneratorBuildPrompt pd reqs [] [] tone =
        pyStrip (dedent
          ("\n            Create a Statement of Work in a " ++ tone ++
           " tone.\n\n            Project Details: " ++ pd ++
           "\n            Requirements:\n- " ++ pyJoin "\n- " reqs ++
           "\n            Constraints:\n- " ++ "None provided" ++
           "\n            Context Snippets:\n" ++ "No context retrieved" ++
           "\n\n            Include milestones, deliverables, acceptance criteria, and success metrics.\n            Provide a concise executive summary followed by detailed sections.\n            ")) := rfl
    rw [hb]
    constructor
    · refine strContains_of_template _
        ("\n            Create a Statement of Work in a " ++ tone ++
         " tone.\n\n            Project Details: " ++ pd ++
         "\n            Requirements:\n- " ++ pyJoin "\n- " reqs)
        ("\n            Constraints:\n- " ++ "None provided" ++
         "\n            Context Snippets:\n")
        ("No context retrieved" ++
         "\n\n            Include milestones, deliverables, acceptance criteria, and success metrics.\n            Provide a concise executive summary followed by detailed sections.\n            ")
        "- None provided" "None provided"
        (by simp [String.append_assoc]) (by decide) (by decide) (by decide) (by decide)
        (by decide) ?_ ?_
      · intro c hc
        rw [show ("None provided".data.head? : Option Char) = some 'N' from rfl] at hc
        simp only [Option.some.injEq] at hc
        rw [← hc]
        decide
      · intro c hc
        rw [show ("None provided".data.getLast? : Option Char) = some 'd' from by decide] at hc
        simp only [Option.some.injEq] at hc
        rw [← hc]
        decide
    · refine strContains_of_template _
        ("\n            Create a Statement of Work in a " ++ tone ++
         " tone.\n\n            Project Details: " ++ pd ++
         "\n            Requirements:\n- " ++ pyJoin "\n- " reqs ++
         "\n            Constraints:\n- " ++ "None provided")
        ("\n            Context Snippets:\n" ++ "No context retrieved" ++ "\n\n")
        ("            Include milestones, deliverables, acceptance criteria, and success metrics.\n            Provide a concise executive summary followed by detailed sections.\n            ")
        "No context retrieved" "No context retrieved"
        (by simp [String.append_assoc]) (by decide) (by decide) (by decide) (by decide)
        (by decide) ?_ ?_
      · intro c hc
        rw [show ("No context retrieved".data.head? : Option Char) = some 'N' from rfl] at hc
        simp only [Option.some.injEq] at hc
        rw [← hc]
        decide
      · intro c hc
        rw [show ("No context retrieved".data.getLast? : Option Char) = some 'd' from by decide] at hc
        simp only [Option.some.injEq] at hc
        rw [← hc]
        decide

/-- **C7 counterexample** to the claim as stated: with empty constraints and
empty context snippets, the backend `SowService._build_prompt` output does
not contain the claimed literal sentinel `"no context retrieved"` (in any
capitalisation) — its empty-context sentinel is `"No retrieved context"`. -/
theorem prompt_sentinels_counterexample :
    ¬ strContains (sowServiceBuildPrompt "P1" ["r1"] [] [] "professional")
        "no context retrieved"
    ∧ ¬ strContains (sowServiceBuildPrompt "P1" ["r1"] [] [] "professional")
        "No context retrieved"
    ∧ strContains (sowServiceBuildPrompt "P1" ["r1"] [] [] "professional")
        "No retrieved context" := by
  refine ⟨by decide, by decide, by decide⟩

end DbxAi
